import Mathlib

/-!
# Verification of the OpenLibreChat maintenance-script repository

Shallow embedding of the repository's maintenance scripts and codemods:

* `scripts/transform-utils.js` — npm/npx/yarn → bun text substitution over
  shell scripts (word-bounded literal regex replacement);
* `scripts/update-env.js` — the `KEY=GET_FROM_LOCAL_ENV` placeholder
  substitution over environment files;
* `scripts/update-packagejson.js` — dependency-merge (`ensureDeps`) in both
  its Bun (object-spread) and Node (assignment-loop) variants;
* `scripts/run-codemods.js` — codemod discovery and strategic ordering;
* `scripts/docker-build.js` — CLI argument parsing;
* `scripts/bun-install-all.js`, `scripts/bun-test-all.js`,
  `scripts/bun-build-all.js` — fan-out orchestration, concurrency pool,
  exit-code aggregation;
* `codemods/transform-docker-scripts.js`, `codemods/transform-package-json.js`
  — per-file rewrite outcome and malformed-input handling.

Strings are modelled as `List Char`; the JavaScript regular-expression
constructs used by the scripts (`\b`, `\s`, `\w`, character classes, anchored
literals) are given explicit executable semantics.  Character classes are
stated on code points so that facts about them discharge by `omega`/`decide`.
All definitions are computable, and fuel-based where the source recursion
skips more than one character at a time, so concrete runs evaluate by
`decide`.
-/

namespace LibreScripts

/-! ## Character classes (JavaScript regex semantics) -/

/-- JavaScript `\w` (word character): `[A-Za-z0-9_]`. -/
def wordChar (c : Char) : Bool :=
  (65 ≤ c.toNat && c.toNat ≤ 90) || (97 ≤ c.toNat && c.toNat ≤ 122) ||
  (48 ≤ c.toNat && c.toNat ≤ 57) || c.toNat = 95

/-- JavaScript `\s` (whitespace): tab, LF, VT, FF, CR, space, NBSP, Ogham
space mark, the U+2000–U+200A spaces, LS, PS, NNBSP, MMSP, ideographic space
and the BOM. -/
def wsChar (c : Char) : Bool :=
  (9 ≤ c.toNat && c.toNat ≤ 13) || c.toNat = 32 || c.toNat = 160 ||
  c.toNat = 0x1680 || (0x2000 ≤ c.toNat && c.toNat ≤ 0x200a) ||
  c.toNat = 0x2028 || c.toNat = 0x2029 || c.toNat = 0x202f ||
  c.toNat = 0x205f || c.toNat = 0x3000 || c.toNat = 0xfeff

/-- The key character class `[A-Z0-9_]` of the `update-env.js` placeholder
regex `^\s*([A-Z0-9_]+)=GET_FROM_LOCAL_ENV\s*$`. -/
def keyChar (c : Char) : Bool :=
  (65 ≤ c.toNat && c.toNat ≤ 90) || (48 ≤ c.toNat && c.toNat ≤ 57) ||
  c.toNat = 95

/-- Word-character test lifted to an optional character; `none` (a string
edge) counts as non-word, matching how `\b` treats the ends of the input. -/
def isWordOpt : Option Char → Bool
  | none => false
  | some c => wordChar c

theorem keyChar_not_wsChar {c : Char} (h : keyChar c = true) : wsChar c = false := by
  apply Bool.eq_false_iff.mpr
  intro hw
  simp only [keyChar, Bool.or_eq_true, Bool.and_eq_true, decide_eq_true_eq] at h
  simp only [wsChar, Bool.or_eq_true, Bool.and_eq_true, decide_eq_true_eq] at hw
  omega

theorem keyChar_word {c : Char} (h : keyChar c = true) : wordChar c = true := by
  simp only [keyChar, Bool.or_eq_true, Bool.and_eq_true, decide_eq_true_eq] at h
  simp only [wordChar, Bool.or_eq_true, Bool.and_eq_true, decide_eq_true_eq]
  omega

theorem eq_not_keyChar {c : Char} (h : c = '=') : keyChar c = false := by
  subst h; decide

/-! ## Word-bounded literal replacement (the `\bpat\b` → `repl` rules)

`String.prototype.replace` with a `/\bLITERAL\b/g` regex scans the subject
left to right; at each position it fires iff the literal is a prefix there and
the two `\b` assertions hold against the characters adjacent to the
occurrence in the *original* string; after a hit, scanning resumes past the
matched text.  `matchAt` is the per-position test (`prev` is the character
before the current position, `none` at the start of input), `replGo` is the
scan (fuel-based so that it evaluates by `decide`), and `hasMatchFrom` is the
exhaustive per-position occurrence test. -/

/-- Does `/\bpat\b/` match at the head of `s`, where `prev` is the character
immediately before `s` in the subject (`none` at the start)?  A `\b` between
two positions holds iff exactly one side is a word character, string edges
counting as non-word. -/
def matchAt (pat : List Char) (prev : Option Char) (s : List Char) : Bool :=
  !pat.isEmpty && pat.isPrefixOf s &&
    (isWordOpt prev != isWordOpt s.head?) &&
    (isWordOpt pat.getLast? != isWordOpt (s.drop pat.length).head?)

/-- The global-replace scan.  `fuel` bounds the recursion (any
`fuel ≥ s.length` gives the true result; see `replGo_congr_fuel`). -/
def replGo (pat repl : List Char) : Nat → Option Char → List Char → List Char
  | 0, _, s => s
  | fuel + 1, prev, s =>
    match s with
    | [] => []
    | c :: rest =>
      if matchAt pat prev (c :: rest) then
        repl ++ replGo pat repl fuel pat.getLast? ((c :: rest).drop pat.length)
      else
        c :: replGo pat repl fuel (some c) rest

/-- `subject.replace(/\bpat\b/g, repl)`. -/
def replaceBounded (pat repl : List Char) (s : List Char) : List Char :=
  replGo pat repl s.length none s

/-- Is there any position of `s` where `/\bpat\b/` matches, `prev` being the
character before `s`? -/
def hasMatchFrom (pat : List Char) : Option Char → List Char → Bool
  | _, [] => false
  | prev, c :: rest => matchAt pat prev (c :: rest) || hasMatchFrom pat (some c) rest

theorem matchAt_ne_nil {pat : List Char} {prev s} (h : matchAt pat prev s = true) :
    pat ≠ [] := by
  rcases pat with _ | ⟨c, l⟩
  · simp [matchAt] at h
  · exact List.cons_ne_nil _ _

theorem matchAt_isPrefixOf {pat : List Char} {prev s} (h : matchAt pat prev s = true) :
    pat.isPrefixOf s = true := by
  simp only [matchAt, Bool.and_eq_true] at h
  exact h.1.1.2

theorem matchAt_length_le {pat : List Char} {prev s} (h : matchAt pat prev s = true) :
    pat.length ≤ s.length :=
  (List.isPrefixOf_iff_prefix.mp (matchAt_isPrefixOf h)).length_le

theorem matchAt_take {pat : List Char} {prev s} (h : matchAt pat prev s = true) :
    s = pat ++ s.drop pat.length := by
  have hp := List.isPrefixOf_iff_prefix.mp (matchAt_isPrefixOf h)
  exact (List.prefix_iff_eq_append.mp hp).symm

/-- `matchAt` only inspects `prev` through its word-character status. -/
theorem matchAt_congr_prev {pat : List Char} {p₁ p₂ : Option Char} {s}
    (h : isWordOpt p₁ = isWordOpt p₂) :
    matchAt pat p₁ s = matchAt pat p₂ s := by
  simp [matchAt, h]

/-- `hasMatchFrom` only inspects its initial context through word status. -/
theorem hasMatchFrom_congr_prev {pat : List Char} {p₁ p₂ : Option Char} {s}
    (h : isWordOpt p₁ = isWordOpt p₂) :
    hasMatchFrom pat p₁ s = hasMatchFrom pat p₂ s := by
  cases s with
  | nil => rfl
  | cons c rest => simp [hasMatchFrom, matchAt_congr_prev h]

/-- The scan context after reading `u`, starting from context `prev`:
the last character of `u` when `u` is nonempty. -/
def lastCtx (prev : Option Char) (u : List Char) : Option Char :=
  match u.getLast? with
  | none => prev
  | some c => some c

theorem lastCtx_nil (prev : Option Char) : lastCtx prev [] = prev := rfl

theorem lastCtx_cons (prev : Option Char) (c : Char) (u : List Char) :
    lastCtx prev (c :: u) = lastCtx (some c) u := by
  cases u with
  | nil => rfl
  | cons d u' =>
    unfold lastCtx
    rw [List.getLast?_cons_cons]
    rcases h : (d :: u').getLast? with _ | e
    · simp at h
    · rfl

theorem lastCtx_of_ne_nil {u : List Char} (prev : Option Char) (h : u ≠ []) :
    lastCtx prev u = u.getLast? := by
  rcases u with _ | ⟨c, u'⟩
  · exact absurd rfl h
  · unfold lastCtx
    rcases hg : (c :: u').getLast? with _ | e
    · simp at hg
    · rfl

theorem replGo_nil (pat repl : List Char) (fuel : Nat) (prev : Option Char) :
    replGo pat repl fuel prev [] = [] := by
  cases fuel <;> rfl

theorem hasMatchFrom_nil (pat : List Char) (prev : Option Char) :
    hasMatchFrom pat prev [] = false := rfl

theorem head_eq_of_matchAt {pat : List Char} {prev : Option Char} {c : Char}
    {rest : List Char} (h : matchAt pat prev (c :: rest) = true) :
    pat.head? = some c := by
  have hp := matchAt_isPrefixOf h
  rcases pat with _ | ⟨p, pt⟩
  · exact absurd rfl (matchAt_ne_nil h)
  · simp only [List.isPrefixOf, Bool.and_eq_true, beq_iff_eq] at hp
    simp [hp.1]

/-- Splitting an occurrence search across an append. -/
theorem hasMatchFrom_append_false {q : List Char} :
    ∀ (u : List Char) (prev : Option Char) (v : List Char),
      hasMatchFrom q prev (u ++ v) = false →
      hasMatchFrom q (lastCtx prev u) v = false := by
  intro u
  induction u with
  | nil => intro prev v h; simpa using h
  | cons c u' ih =>
    intro prev v h
    rw [List.cons_append] at h
    simp only [hasMatchFrom, Bool.or_eq_false_iff] at h
    rw [lastCtx_cons]
    exact ih (some c) v h.2

/-- A string without any bounded occurrence of `pat` is a fixpoint of the
replacement scan. -/
theorem replGo_of_no_match {pat repl : List Char} :
    ∀ (fuel : Nat) (prev : Option Char) (s : List Char),
      hasMatchFrom pat prev s = false →
      replGo pat repl fuel prev s = s := by
  intro fuel
  induction fuel with
  | zero => intro prev s _; rfl
  | succ f ih =>
    intro prev s h
    cases s with
    | nil => rfl
    | cons c rest =>
      simp only [hasMatchFrom, Bool.or_eq_false_iff] at h
      simp only [replGo]
      rw [if_neg (by simp [h.1]), ih (some c) rest h.2]

/-- The replacement scan preserves the word status of the first character
(both `pat` and `repl` start with a word character in every rule we model). -/
theorem replGo_head_status {pat repl : List Char}
    (hwp : isWordOpt pat.head? = true) (hwr : isWordOpt repl.head? = true) :
    ∀ (fuel : Nat) (prev : Option Char) (s : List Char),
      isWordOpt (replGo pat repl fuel prev s).head? = isWordOpt s.head? := by
  intro fuel
  induction fuel with
  | zero => intro prev s; rfl
  | succ f ih =>
    intro prev s
    cases s with
    | nil => rfl
    | cons c rest =>
      simp only [replGo]
      by_cases hm : matchAt pat prev (c :: rest) = true
      · rw [if_pos hm]
        rcases repl with _ | ⟨r0, rt⟩
        · simp [isWordOpt] at hwr
        · have h2 : isWordOpt (some c) = true := by
            rw [head_eq_of_matchAt hm] at hwp; exact hwp
          have h1 : isWordOpt (some r0) = true := by simpa using hwr
          simp [h1, h2]
      · rw [if_neg hm]; rfl

/-- A prefix of the scan output that avoids the replacement's first character
is a prefix of the input, and the word status of the character following it
is the same in output and input.  This is the heart of the idempotence
argument: a bounded occurrence in the output must already sit in the input. -/
theorem replGo_prefix_transfer {pat repl : List Char}
    (hwp : isWordOpt pat.head? = true) (hwr : isWordOpt repl.head? = true)
    (hrne : repl ≠ []) :
    ∀ (fuel : Nat) (s : List Char) (prev : Option Char) (q : List Char),
      q ≠ [] →
      (∀ c, repl.head? = some c → q.contains c = false) →
      q.isPrefixOf (replGo pat repl fuel prev s) = true →
      q.isPrefixOf s = true ∧
        isWordOpt ((replGo pat repl fuel prev s).drop q.length).head? =
          isWordOpt ((s.drop q.length).head?) := by
  intro fuel
  induction fuel with
  | zero => intro s prev q _ _ h; exact ⟨h, rfl⟩
  | succ f ih =>
    intro s prev q hqne hni h
    cases s with
    | nil =>
      rw [replGo_nil] at h ⊢
      rcases q with _ | ⟨qh, qt⟩
      · exact absurd rfl hqne
      · simp [List.isPrefixOf] at h
    | cons c rest =>
      rcases q with _ | ⟨qh, qt⟩
      · exact absurd rfl hqne
      by_cases hm : matchAt pat prev (c :: rest) = true
      · exfalso
        rcases repl with _ | ⟨r0, rt⟩
        · exact hrne rfl
        rw [show replGo pat (r0 :: rt) (f + 1) prev (c :: rest) =
              (r0 :: rt) ++ replGo pat (r0 :: rt) f pat.getLast?
                ((c :: rest).drop pat.length) by simp [replGo, hm]] at h
        rw [List.cons_append] at h
        simp only [List.isPrefixOf, Bool.and_eq_true, beq_iff_eq] at h
        have hc := hni r0 rfl
        rw [← h.1] at hc
        simp [List.contains_cons] at hc
      · rw [show replGo pat repl (f + 1) prev (c :: rest) =
              c :: replGo pat repl f (some c) rest by simp [replGo, hm]] at h ⊢
        simp only [List.isPrefixOf, Bool.and_eq_true, beq_iff_eq] at h
        rcases qt with _ | ⟨q1, q'⟩
        · refine ⟨by simp [List.isPrefixOf, h.1], ?_⟩
          simp only [List.length_cons, List.length_nil, Nat.zero_add,
            List.drop_succ_cons, List.drop_zero]
          exact replGo_head_status hwp hwr f (some c) rest
        · obtain ⟨p1, p2⟩ := ih rest (some c) (q1 :: q')
            (List.cons_ne_nil _ _)
            (by intro x hx
                have hcx := hni x hx
                simp only [List.contains_cons, Bool.or_eq_false_iff] at hcx ⊢
                exact hcx.2) h.2
          refine ⟨by simp [List.isPrefixOf, h.1, p1], ?_⟩
          simpa [List.length_cons, List.drop_succ_cons] using p2

/-- A bounded occurrence of `q` at the head of the scan output transfers to
the head of the input. -/
theorem matchAt_transfer {pat repl q : List Char}
    (hwp : isWordOpt pat.head? = true) (hwr : isWordOpt repl.head? = true)
    (hrne : repl ≠ [])
    (hni : ∀ c, repl.head? = some c → q.contains c = false) :
    ∀ (fuel : Nat) (s : List Char) (prev : Option Char),
      matchAt q prev (replGo pat repl fuel prev s) = true →
      matchAt q prev s = true := by
  intro fuel s prev h
  have hqne : q ≠ [] := matchAt_ne_nil h
  simp only [matchAt, Bool.and_eq_true] at h
  obtain ⟨⟨⟨h1, h2⟩, h3⟩, h4⟩ := h
  obtain ⟨p1, p2⟩ := replGo_prefix_transfer hwp hwr hrne fuel s prev q hqne hni h2
  have hh := replGo_head_status hwp hwr fuel prev s
  simp only [matchAt, Bool.and_eq_true]
  rw [hh] at h3
  rw [p2] at h4
  exact ⟨⟨⟨h1, p1⟩, h3⟩, h4⟩

/-- Auxiliary scan deciding that no bounded occurrence of a pattern starting
with `h` can begin inside a block: every position holding `h` is preceded by
a word character (which defeats the left `\b`), and the first position is not
`h` at all (`prev = none` means the context is unknown). -/
def sbAux (h : Char) : Option Char → List Char → Bool
  | _, [] => true
  | prev, c :: cs =>
    (!(c == h) || (match prev with | some p => wordChar p | none => false)) &&
      sbAux h (some c) cs

/-- No bounded occurrence of `q` can start inside `r` (used with `r` a
replacement text). -/
def startBlocked (q r : List Char) : Bool := sbAux (q.headD ' ') none r

theorem hasMatchFrom_append_of_sbAux {q : List Char} {qh : Char} {qt : List Char}
    (hq : q = qh :: qt) (hwq : isWordOpt q.head? = true) :
    ∀ (r : List Char) (c : Char) (t : List Char),
      sbAux qh (some c) r = true →
      hasMatchFrom q (lastCtx (some c) r) t = false →
      hasMatchFrom q (some c) (r ++ t) = false := by
  intro r
  induction r with
  | nil => intro c t _ ht; simpa [lastCtx_nil] using ht
  | cons d r' ih =>
    intro c t hsb ht
    simp only [sbAux, Bool.and_eq_true, Bool.or_eq_true] at hsb
    rw [List.cons_append]
    simp only [hasMatchFrom, Bool.or_eq_false_iff]
    constructor
    · apply Bool.eq_false_iff.mpr
      intro hmm
      have hhead := head_eq_of_matchAt hmm
      rw [hq] at hhead
      simp only [List.head?_cons, Option.some.injEq] at hhead
      rcases hsb.1 with hne | hw
      · rw [← hhead] at hne
        simp at hne
      · simp only [matchAt, Bool.and_eq_true] at hmm
        have h3 := hmm.1.2
        rw [hq] at hwq
        simp only [List.head?_cons, isWordOpt] at hwq
        simp only [List.head?_cons, isWordOpt, hw, ← hhead, hwq,
          bne_self_eq_false] at h3
        exact absurd h3 (by simp)
    · rw [lastCtx_cons] at ht
      exact ih d t hsb.2 ht

theorem hasMatchFrom_append_of_startBlocked {q : List Char}
    (hqne : q ≠ []) (hwq : isWordOpt q.head? = true) :
    ∀ (r : List Char) (prev : Option Char) (t : List Char),
      startBlocked q r = true →
      hasMatchFrom q (lastCtx prev r) t = false →
      hasMatchFrom q prev (r ++ t) = false := by
  intro r prev t hsb ht
  rcases q with _ | ⟨qh, qt⟩
  · exact absurd rfl hqne
  rcases r with _ | ⟨rc, r'⟩
  · simpa [lastCtx_nil] using ht
  unfold startBlocked at hsb
  simp only [List.headD_cons] at hsb
  simp only [sbAux, Bool.and_eq_true, Bool.or_eq_true] at hsb
  have hrc : (rc == qh) = false := by
    rcases hsb.1 with hne | hfalse
    · simpa using hne
    · cases hfalse
  rw [List.cons_append]
  simp only [hasMatchFrom, Bool.or_eq_false_iff]
  constructor
  · apply Bool.eq_false_iff.mpr
    intro hmm
    have := head_eq_of_matchAt hmm
    simp only [List.head?_cons, Option.some.injEq] at this
    rw [this] at hrc
    simp at hrc
  · rw [lastCtx_cons] at ht
    exact hasMatchFrom_append_of_sbAux rfl hwq r' rc t hsb.2 ht

/-- Bundled side condition for one replacement rule `(pat, repl)` against a
pattern `q` of an earlier rule: everything the preservation lemma requires,
decidable on concrete rule data. -/
def pairOK (q : List Char) (r : List Char × List Char) : Bool :=
  !r.1.isEmpty && !r.2.isEmpty &&
  isWordOpt r.1.head? && isWordOpt r.1.getLast? &&
  isWordOpt r.2.head? && isWordOpt r.2.getLast? &&
  !q.isEmpty && isWordOpt q.head? &&
  startBlocked q r.2 && !(q.contains (r.2.headD ' '))

theorem pairOK_contains {q : List Char} {r : List Char × List Char}
    (h : pairOK q r = true) : ∀ c, r.2.head? = some c → q.contains c = false := by
  intro c hc
  simp only [pairOK, Bool.and_eq_true, Bool.not_eq_true'] at h
  rcases hr2 : r.2 with _ | ⟨r0, rt⟩
  · rw [hr2] at hc; simp at hc
  · rw [hr2] at hc
    simp only [List.head?_cons, Option.some.injEq] at hc
    have := h.2
    rw [hr2] at this
    simp only [List.headD_cons] at this
    rw [hc] at this
    exact this

/-- Applying a later rule `(pat, repl)` cannot create a bounded occurrence of
an earlier rule's pattern `q`. -/
theorem hasMatchFrom_replGo_preserved {q : List Char} {r : List Char × List Char}
    (hok : pairOK q r = true) :
    ∀ (fuel : Nat) (s : List Char) (prev : Option Char),
      s.length ≤ fuel →
      hasMatchFrom q prev s = false →
      hasMatchFrom q prev (replGo r.1 r.2 fuel prev s) = false := by
  have hok' := hok
  simp only [pairOK, Bool.and_eq_true, Bool.not_eq_true'] at hok'
  obtain ⟨⟨⟨⟨⟨⟨⟨⟨⟨hp_ne, hr_ne⟩, hwp_h⟩, hwp_l⟩, hwr_h⟩, hwr_l⟩, hq_ne⟩, hwq⟩,
    hsb⟩, _⟩ := hok'
  have hpne : r.1 ≠ [] := by
    intro hcon; rw [hcon] at hp_ne; simp at hp_ne
  have hrne : r.2 ≠ [] := by
    intro hcon; rw [hcon] at hr_ne; simp at hr_ne
  have hqne : q ≠ [] := by
    intro hcon; rw [hcon] at hq_ne; simp at hq_ne
  have hni := pairOK_contains hok
  intro fuel
  induction fuel with
  | zero => intro s prev _ h; exact h
  | succ f ih =>
    intro s prev hlen h
    cases s with
    | nil => rw [replGo_nil]; exact hasMatchFrom_nil q prev
    | cons c rest =>
      by_cases hm : matchAt r.1 prev (c :: rest) = true
      · rw [show replGo r.1 r.2 (f + 1) prev (c :: rest) =
              r.2 ++ replGo r.1 r.2 f r.1.getLast?
                ((c :: rest).drop r.1.length) by simp [replGo, hm]]
        have hsplit : (c :: rest) = r.1 ++ (c :: rest).drop r.1.length :=
          matchAt_take hm
        have hdroplen : ((c :: rest).drop r.1.length).length ≤ f := by
          have h1 := matchAt_length_le hm
          have h2 : r.1.length ≠ 0 := by
            intro hcon
            exact hpne (List.length_eq_zero.mp hcon)
          simp only [List.length_drop, List.length_cons] at *
          omega
        have hrest : hasMatchFrom q r.1.getLast? ((c :: rest).drop r.1.length)
            = false := by
          have := hasMatchFrom_append_false (q := q) r.1 prev
            ((c :: rest).drop r.1.length) (by rw [← hsplit]; exact h)
          rwa [lastCtx_of_ne_nil prev hpne] at this
        have hout := ih ((c :: rest).drop r.1.length) r.1.getLast? hdroplen hrest
        have hctx : isWordOpt r.1.getLast? = isWordOpt r.2.getLast? := by
          rw [hwp_l, hwr_l]
        rw [hasMatchFrom_congr_prev hctx] at hout
        apply hasMatchFrom_append_of_startBlocked hqne hwq r.2 prev _ hsb
        rwa [lastCtx_of_ne_nil prev hrne]
      · rw [show replGo r.1 r.2 (f + 1) prev (c :: rest) =
              c :: replGo r.1 r.2 f (some c) rest by simp [replGo, hm]]
        simp only [hasMatchFrom, Bool.or_eq_false_iff] at h ⊢
        constructor
        · apply Bool.eq_false_iff.mpr
          intro hmm
          have htr : matchAt q prev (c :: rest) = true := by
            apply matchAt_transfer hwp_h hwr_h hrne hni (f + 1) (c :: rest) prev
            rw [show replGo r.1 r.2 (f + 1) prev (c :: rest) =
                  c :: replGo r.1 r.2 f (some c) rest by simp [replGo, hm]]
            exact hmm
          rw [htr] at h
          exact absurd h.1 (by simp)
        · exact ih rest (some c)
            (by simp only [List.length_cons] at hlen; omega) h.2

/-- The replacement scan leaves no bounded occurrence of its own pattern in
its output. -/
theorem hasMatchFrom_replGo_self {r : List Char × List Char}
    (hok : pairOK r.1 r = true) :
    ∀ (fuel : Nat) (s : List Char) (prev : Option Char),
      s.length ≤ fuel →
      hasMatchFrom r.1 prev (replGo r.1 r.2 fuel prev s) = false := by
  have hok' := hok
  simp only [pairOK, Bool.and_eq_true, Bool.not_eq_true'] at hok'
  obtain ⟨⟨⟨⟨⟨⟨⟨⟨⟨hp_ne, hr_ne⟩, hwp_h⟩, hwp_l⟩, hwr_h⟩, hwr_l⟩, _⟩, hwq⟩,
    hsb⟩, _⟩ := hok'
  have hpne : r.1 ≠ [] := by
    intro hcon; rw [hcon] at hp_ne; simp at hp_ne
  have hrne : r.2 ≠ [] := by
    intro hcon; rw [hcon] at hr_ne; simp at hr_ne
  have hni := pairOK_contains hok
  intro fuel
  induction fuel with
  | zero =>
    intro s prev hlen
    have hs : s = [] := List.length_eq_zero.mp (Nat.le_zero.mp hlen)
    rw [hs]
    exact hasMatchFrom_nil _ prev
  | succ f ih =>
    intro s prev hlen
    cases s with
    | nil => rw [replGo_nil]; exact hasMatchFrom_nil _ prev
    | cons c rest =>
      by_cases hm : matchAt r.1 prev (c :: rest) = true
      · rw [show replGo r.1 r.2 (f + 1) prev (c :: rest) =
              r.2 ++ replGo r.1 r.2 f r.1.getLast?
                ((c :: rest).drop r.1.length) by simp [replGo, hm]]
        have hdroplen : ((c :: rest).drop r.1.length).length ≤ f := by
          have h1 := matchAt_length_le hm
          have h2 : r.1.length ≠ 0 := by
            intro hcon
            exact hpne (List.length_eq_zero.mp hcon)
          simp only [List.length_drop, List.length_cons] at *
          omega
        have hout := ih ((c :: rest).drop r.1.length) r.1.getLast? hdroplen
        have hctx : isWordOpt r.1.getLast? = isWordOpt r.2.getLast? := by
          rw [hwp_l, hwr_l]
        rw [hasMatchFrom_congr_prev hctx] at hout
        apply hasMatchFrom_append_of_startBlocked hpne hwq r.2 prev _ hsb
        rwa [lastCtx_of_ne_nil prev hrne]
      · rw [show replGo r.1 r.2 (f + 1) prev (c :: rest) =
              c :: replGo r.1 r.2 f (some c) rest by simp [replGo, hm]]
        simp only [hasMatchFrom, Bool.or_eq_false_iff]
        constructor
        · apply Bool.eq_false_iff.mpr
          intro hmm
          apply hm
          apply matchAt_transfer hwp_h hwr_h hrne hni (f + 1) (c :: rest) prev
          rw [show replGo r.1 r.2 (f + 1) prev (c :: rest) =
                c :: replGo r.1 r.2 f (some c) rest by simp [replGo, hm]]
          exact hmm
        · exact ih rest (some c)
            (by simp only [List.length_cons] at hlen; omega)

/-! ## Ordered rule lists -/

/-- One `.replace(/\bpat\b/g, repl)` call. -/
def applyRule (r : List Char × List Char) (s : List Char) : List Char :=
  replaceBounded r.1 r.2 s

/-- A chain of `.replace` calls, applied in the order listed (exactly the
method chain of `transformFile` in `scripts/transform-utils.js`). -/
def applyRules (rs : List (List Char × List Char)) (s : List Char) : List Char :=
  rs.foldl (fun acc r => applyRule r acc) s

/-- All rules are individually sound and each rule's pattern is protected
against resurrection by every later rule's replacement. -/
def allOK : List (List Char × List Char) → Bool
  | [] => true
  | r :: rs => pairOK r.1 r && rs.all (fun r' => pairOK r.1 r') && allOK rs

theorem hasMatchFrom_applyRule_preserved {q : List Char}
    {r : List Char × List Char} (hok : pairOK q r = true) {s : List Char}
    (h : hasMatchFrom q none s = false) :
    hasMatchFrom q none (applyRule r s) = false :=
  hasMatchFrom_replGo_preserved hok s.length s none (Nat.le_refl _) h

theorem hasMatchFrom_applyRules_preserved {q : List Char} :
    ∀ (rs : List (List Char × List Char)) (s : List Char),
      (∀ r ∈ rs, pairOK q r = true) →
      hasMatchFrom q none s = false →
      hasMatchFrom q none (applyRules rs s) = false := by
  intro rs
  induction rs with
  | nil => intro s _ h; exact h
  | cons r rs' ih =>
    intro s hall h
    have h1 := hasMatchFrom_applyRule_preserved (hall r (List.mem_cons_self _ _)) h
    exact ih (applyRule r s) (fun r' hr' => hall r' (List.mem_cons_of_mem _ hr')) h1

theorem hasMatchFrom_applyRules_all :
    ∀ (rs : List (List Char × List Char)), allOK rs = true →
      ∀ (s : List Char) (r : List Char × List Char), r ∈ rs →
        hasMatchFrom r.1 none (applyRules rs s) = false := by
  intro rs
  induction rs with
  | nil => intro _ s r hr; cases hr
  | cons r0 rs' ih =>
    intro hok s r hr
    simp only [allOK, Bool.and_eq_true, List.all_eq_true] at hok
    have hstep : applyRules (r0 :: rs') s = applyRules rs' (applyRule r0 s) := rfl
    rcases List.mem_cons.mp hr with hr0 | hr'
    · subst hr0
      rw [hstep]
      exact hasMatchFrom_applyRules_preserved rs' (applyRule r s)
        (fun r' hm => hok.1.2 r' hm)
        (hasMatchFrom_replGo_self hok.1.1 s.length s none (Nat.le_refl _))
    · rw [hstep]
      exact ih hok.2 (applyRule r0 s) r hr'

theorem applyRules_fixpoint :
    ∀ (rs : List (List Char × List Char)) (t : List Char),
      (∀ r ∈ rs, hasMatchFrom r.1 none t = false) →
      applyRules rs t = t := by
  intro rs
  induction rs with
  | nil => intro t _; rfl
  | cons r rs' ih =>
    intro t hall
    have h0 : applyRule r t = t :=
      replGo_of_no_match t.length none t (hall r (List.mem_cons_self _ _))
    have hstep : applyRules (r :: rs') t = applyRules rs' (applyRule r t) := rfl
    rw [hstep, h0]
    exact ih t (fun r' hr' => hall r' (List.mem_cons_of_mem _ hr'))

/-- Idempotence of an ordered list of word-bounded replacement rules whose
side conditions hold. -/
theorem applyRules_idem {rs : List (List Char × List Char)}
    (hok : allOK rs = true) (s : List Char) :
    applyRules rs (applyRules rs s) = applyRules rs s :=
  applyRules_fixpoint rs (applyRules rs s)
    (fun r hr => hasMatchFrom_applyRules_all rs hok s r hr)

/-! ## `scripts/transform-utils.js` — the npm/npx/yarn → bun rewrite -/

namespace TransformUtils

/-- The nine replacement rules of `transformFile`, in the order of the
`.replace` chain (each is `/\bLHS\b/g` → RHS). -/
def RULES : List (List Char × List Char) :=
  [ ("npm view".toList, "bun pm info".toList),
    ("npm ci".toList, "bun install --frozen-lockfile".toList),
    ("npm install".toList, "bun install".toList),
    ("npm test".toList, "bun test".toList),
    ("npm run".toList, "bun run".toList),
    ("npx".toList, "bunx".toList),
    ("yarn add".toList, "bun add".toList),
    ("yarn init".toList, "bun init".toList),
    ("yarn".toList, "bun".toList) ]

/-- The full text transformation of `transformFile` (`original` →
`transformed`). -/
def transformShell (s : List Char) : List Char :=
  LibreScripts.applyRules RULES s

theorem rules_allOK : LibreScripts.allOK RULES = true := by decide

/-- Events reported by `transformFile` for one file. -/
inductive FileEvent
  | noChange
  | transformed
  deriving DecidableEq, Repr

/-- Observable effects of `transformFile` on one (existing) file: whether the
target file was rewritten, whether a `.bak` backup was created, and which
message was reported. -/
structure FileEffects where
  wrote : Bool
  backupCreated : Bool
  event : FileEvent
  deriving DecidableEq, Repr

/-- `transformFile` of `scripts/transform-utils.js` on an existing file with
content `original`: compares the transformed text with the original, and only
on a difference writes the backup and the new content. -/
def transformFile (original : List Char) : FileEffects × List Char :=
  let transformed := transformShell original
  if transformed = original then
    (⟨false, false, FileEvent.noChange⟩, original)
  else
    (⟨true, true, FileEvent.transformed⟩, transformed)

end TransformUtils

/-! ## JavaScript `String.prototype.split` with a single-character separator -/

/-- `s.split(sep)` for a one-character separator: `""` splits to `[""]`,
separators at the edges produce empty fields. -/
def splitOnChar (sep : Char) : List Char → List (List Char)
  | [] => [[]]
  | c :: rest =>
    if c = sep then [] :: splitOnChar sep rest
    else
      match splitOnChar sep rest with
      | [] => [[c]]
      | h :: t => (c :: h) :: t

theorem splitOnChar_ne_nil (sep : Char) : ∀ (l : List Char), splitOnChar sep l ≠ [] := by
  intro l
  induction l with
  | nil => simp [splitOnChar]
  | cons c rest ih =>
    simp only [splitOnChar]
    by_cases h : c = sep
    · simp [h]
    · rw [if_neg h]
      rcases hs : splitOnChar sep rest with _ | ⟨h0, t⟩
      · simp
      · simp

/-- The first field of a split is everything before the first separator. -/
theorem splitOnChar_head (sep : Char) :
    ∀ (l : List Char),
      (splitOnChar sep l).head? = some (l.takeWhile (fun c => !(c == sep))) := by
  intro l
  induction l with
  | nil => rfl
  | cons c rest ih =>
    simp only [splitOnChar]
    by_cases h : c = sep
    · subst h
      simp [List.takeWhile_cons]
    · rw [if_neg h]
      rcases hs : splitOnChar sep rest with _ | ⟨h0, t⟩
      · exact absurd hs (splitOnChar_ne_nil sep rest)
      · rw [hs] at ih
        simp only [List.head?_cons, Option.some.injEq] at ih
        simp [List.takeWhile_cons, h, ← ih]

/-- Splitting `u ++ sep :: v` where `u` is separator-free isolates `u` as the
first field. -/
theorem splitOnChar_append (sep : Char) :
    ∀ (u : List Char), (∀ c ∈ u, c ≠ sep) → ∀ (v : List Char),
      splitOnChar sep (u ++ sep :: v) = u :: splitOnChar sep v := by
  intro u
  induction u with
  | nil => intro _ v; simp [splitOnChar]
  | cons c u' ih =>
    intro hc v
    have hcs : c ≠ sep := hc c (List.mem_cons_self _ _)
    simp only [List.cons_append, splitOnChar, if_neg hcs]
    rw [List.append_eq, ih (fun d hd => hc d (List.mem_cons_of_mem _ hd)) v]

/-- `arg.split(sep)[1] ?? dflt` (JS index access yielding `undefined` → the
caller's default). -/
def splitIdx1 (sep : Char) (dflt : List Char) (arg : List Char) : List Char :=
  ((splitOnChar sep arg).drop 1).headD dflt

/-! ## `scripts/update-env.js` — the `GET_FROM_LOCAL_ENV` placeholder -/

namespace UpdateEnv

/-- `"GET_FROM_LOCAL_ENV"`. -/
def PLACEHOLDER : List Char := "GET_FROM_LOCAL_ENV".toList

/-- Matches a line against `/^\s*([A-Z0-9_]+)=GET_FROM_LOCAL_ENV\s*$/` and
returns the captured key.  The regex is deterministic: the greedy `\s*` and
`[A-Z0-9_]+` classes are disjoint from each other and from `=`, so matching
is maximal munch. -/
def envLineKey (l : List Char) : Option (List Char) :=
  let l1 := l.dropWhile wsChar
  let key := l1.takeWhile keyChar
  let rest := l1.dropWhile keyChar
  if key.isEmpty then none
  else
    match rest with
    | '=' :: rest' =>
      if PLACEHOLDER.isPrefixOf rest' && (rest'.drop PLACEHOLDER.length).all wsChar
      then some key else none
    | _ => none

/-- One iteration of the line-processing loop of `main`: the output line, the
key recorded in `updates` (if substituted) and the key recorded in `missing`
(if the placeholder had neither an environment value nor a fallback). -/
structure LineOut where
  out : List Char
  updatedKey : Option (List Char)
  missingKey : Option (List Char)
  deriving DecidableEq, Repr

/-- The loop body: on a placeholder line substitute `Bun.env[key]`, else a
non-empty `--fallback` value, else leave the line unchanged and record the
key as missing; non-placeholder lines pass through untouched. -/
def processLine (env : List Char → Option (List Char)) (fallback : List Char)
    (l : List Char) : LineOut :=
  match envLineKey l with
  | some key =>
    match env key with
    | some v => ⟨key ++ '=' :: v, some key, none⟩
    | none =>
      if !fallback.isEmpty then ⟨key ++ '=' :: fallback, some key, none⟩
      else ⟨l, none, some key⟩
  | none => ⟨l, none, none⟩

/-- Result of a full run over the merged input lines. -/
structure RunOut where
  lines : List (List Char)
  updates : List (List Char)
  missing : List (List Char)
  exitCode : Nat
  deriving DecidableEq, Repr

/-- The line loop plus the strict-mode check of `main`: `missing.length &&
strict` aborts with exit 1 (before any write); otherwise the run warns and
completes with exit 0. -/
def run (env : List Char → Option (List Char)) (fallback : List Char)
    (strict : Bool) (merged : List (List Char)) : RunOut :=
  let outs := merged.map (processLine env fallback)
  let missing := outs.filterMap (fun o => o.missingKey)
  { lines := outs.map (fun o => o.out)
    updates := outs.filterMap (fun o => o.updatedKey)
    missing := missing
    exitCode := if !missing.isEmpty && strict then 1 else 0 }

/-- CLI options of `update-env.js` as resolved by `parseArgs` plus the
defaulting in `main` (`--fallback=` values go through `split("=")[1] ?? ""`;
absence of the flag also yields `""`). -/
structure Options where
  strict : Bool
  dryRun : Bool
  json : Bool
  fallback : List Char
  positional : List (List Char)
  deriving DecidableEq, Repr

/-- `parseArgs` of `update-env.js`, with `main`'s defaulting of
`options.fallback ?? ""` applied. -/
def parseArgs (args : List (List Char)) : Options :=
  args.foldl
    (fun o arg =>
      if arg = "--strict".toList then { o with strict := true }
      else if arg = "--dry-run".toList then { o with dryRun := true }
      else if arg = "--json".toList then { o with json := true }
      else if ("--fallback=".toList).isPrefixOf arg then
        { o with fallback := splitIdx1 '=' [] arg }
      else { o with positional := o.positional ++ [arg] })
    ⟨false, false, false, [], []⟩

end UpdateEnv

theorem takeWhile_all_append {p : Char → Bool} :
    ∀ {l : List Char}, l.all p = true → ∀ (l' : List Char),
      (l ++ l').takeWhile p = l ++ l'.takeWhile p := by
  intro l
  induction l with
  | nil => intro _ l'; rfl
  | cons c t ih =>
    intro h l'
    simp only [List.all_cons, Bool.and_eq_true] at h
    simp [List.cons_append, List.takeWhile_cons, h.1, ih h.2 l']

theorem dropWhile_all_append {p : Char → Bool} :
    ∀ {l : List Char}, l.all p = true → ∀ (l' : List Char),
      (l ++ l').dropWhile p = l'.dropWhile p := by
  intro l
  induction l with
  | nil => intro _ l'; rfl
  | cons c t ih =>
    intro h l'
    simp only [List.all_cons, Bool.and_eq_true] at h
    simp [List.cons_append, List.dropWhile_cons, h.1, ih h.2 l']

namespace UpdateEnv

theorem envLineKey_shape {l key : List Char} (h : envLineKey l = some key) :
    key = (l.dropWhile wsChar).takeWhile keyChar ∧ key.isEmpty = false := by
  simp only [envLineKey] at h
  by_cases he : ((l.dropWhile wsChar).takeWhile keyChar).isEmpty = true
  · rw [if_pos he] at h
    exact Option.noConfusion h
  · rw [if_neg he] at h
    split at h
    · split at h
      · injection h with h
        exact ⟨h.symm, by rw [← h]; exact Bool.eq_false_iff.mpr he⟩
      · exact Option.noConfusion h
    · exact Option.noConfusion h

theorem envLineKey_all_keyChar {l key : List Char} (h : envLineKey l = some key) :
    key.all keyChar = true := by
  obtain ⟨hk, _⟩ := envLineKey_shape h
  rw [hk]
  simp only [List.all_eq_true]
  intro c hc
  exact List.mem_takeWhile_imp hc

/-- Re-matching a substituted line `key ++ "=" ++ v`: the line matches the
placeholder regex again iff `v` is the placeholder text followed only by
whitespace, and then the captured key is the same `key`. -/
theorem envLineKey_subst {key : List Char} (hne : key.isEmpty = false)
    (hall : key.all keyChar = true) (v : List Char) :
    envLineKey (key ++ '=' :: v) =
      if PLACEHOLDER.isPrefixOf v && (v.drop PLACEHOLDER.length).all wsChar
      then some key else none := by
  have hdw : (key ++ '=' :: v).dropWhile wsChar = key ++ '=' :: v := by
    rcases key with _ | ⟨k0, kt⟩
    · simp at hne
    · simp only [List.all_cons, Bool.and_eq_true] at hall
      simp only [List.cons_append, List.dropWhile_cons,
        keyChar_not_wsChar hall.1]
      rw [if_neg (by simp)]
  have htw : (key ++ '=' :: v).takeWhile keyChar = key := by
    rw [takeWhile_all_append hall]
    simp [List.takeWhile_cons, eq_not_keyChar rfl]
  have hdk : (key ++ '=' :: v).dropWhile keyChar = '=' :: v := by
    rw [dropWhile_all_append hall]
    simp [List.dropWhile_cons, eq_not_keyChar rfl]
  simp only [envLineKey, hdw, htw, hdk, hne]
  rfl

/-- Per-line idempotence of the placeholder substitution: re-running the loop
body on its own output line changes nothing (for the same environment and
fallback). -/
theorem processLine_out_idem (env : List Char → Option (List Char))
    (fallback : List Char) (l : List Char) :
    (processLine env fallback (processLine env fallback l).out).out =
      (processLine env fallback l).out := by
  rcases hk : envLineKey l with _ | key
  · simp only [processLine, hk]
  · have hne := (envLineKey_shape hk).2
    have hall := envLineKey_all_keyChar hk
    rcases hv : env key with _ | v
    · by_cases hfb : fallback.isEmpty = true
      · have hinner : processLine env fallback l = ⟨l, none, some key⟩ := by
          simp [processLine, hk, hv, hfb]
        rw [hinner]
        show (processLine env fallback l).out = l
        rw [hinner]
      · have hfb' : fallback.isEmpty = false := Bool.eq_false_iff.mpr hfb
        have hinner : processLine env fallback l =
            ⟨key ++ '=' :: fallback, some key, none⟩ := by
          simp [processLine, hk, hv, hfb']
        rw [hinner]
        show (processLine env fallback (key ++ '=' :: fallback)).out =
          key ++ '=' :: fallback
        by_cases hc : (PLACEHOLDER.isPrefixOf fallback &&
            (fallback.drop PLACEHOLDER.length).all wsChar) = true
        · simp [processLine, envLineKey_subst hne hall fallback, hc, hv, hfb']
        · simp [processLine, envLineKey_subst hne hall fallback,
            Bool.eq_false_iff.mpr hc]
    · have hinner : processLine env fallback l =
          ⟨key ++ '=' :: v, some key, none⟩ := by
        simp [processLine, hk, hv]
      rw [hinner]
      show (processLine env fallback (key ++ '=' :: v)).out = key ++ '=' :: v
      by_cases hc : (PLACEHOLDER.isPrefixOf v &&
          (v.drop PLACEHOLDER.length).all wsChar) = true
      · simp [processLine, envLineKey_subst hne hall v, hc, hv]
      · simp [processLine, envLineKey_subst hne hall v,
          Bool.eq_false_iff.mpr hc]

/-- Idempotence of the whole line loop on the produced line list. -/
theorem run_lines_idem (env : List Char → Option (List Char))
    (fallback : List Char) (strict : Bool) (merged : List (List Char)) :
    (run env fallback strict (run env fallback strict merged).lines).lines =
      (run env fallback strict merged).lines := by
  simp only [run, List.map_map]
  apply List.map_congr_left
  intro l _
  exact processLine_out_idem env fallback l

end UpdateEnv

/-! ## JavaScript object semantics for dependency maps

A parsed JSON object is a finite map with insertion order; modelled as an
association list with unique keys.  Property assignment (`o[k] = v`) and
object spread both reduce to `insertEntry`: an existing key is updated in
place (its position kept), a fresh key is appended. -/

/-- JS property assignment `o[kv.1] = kv.2` on an insertion-ordered object. -/
def insertEntry (m : List (String × String)) (kv : String × String) :
    List (String × String) :=
  if m.any (fun e => e.1 == kv.1) then
    m.map (fun e => if e.1 = kv.1 then kv else e)
  else m ++ [kv]

/-- Building an object from a sequence of entries (later duplicates update
earlier ones in place), as `new Map(entries)` and object literals do. -/
def objFromEntries (l : List (String × String)) : List (String × String) :=
  l.foldl insertEntry []

/-- JS object spread `{...a, ...b}`. -/
def objMerge (a b : List (String × String)) : List (String × String) :=
  objFromEntries (a ++ b)

/-- Keyed lookup, `o[k]` (first entry wins; entries are unique-keyed in any
object built by `insertEntry`). -/
def lookupVal (m : List (String × String)) (k : String) : Option String :=
  (m.find? (fun e => e.1 == k)).map (fun e => e.2)

/-- The keys of an object are pairwise distinct. -/
def keysNodup (m : List (String × String)) : Prop := (m.map Prod.fst).Nodup

theorem insertEntry_keys_of_mem {m : List (String × String)}
    {kv : String × String} (h : m.any (fun e => e.1 == kv.1) = true) :
    (insertEntry m kv).map Prod.fst = m.map Prod.fst := by
  simp only [insertEntry, h, if_true, List.map_map]
  apply List.map_congr_left
  intro e _
  by_cases he : e.1 = kv.1
  · simp [he]
  · simp [he]

theorem insertEntry_keysNodup {m : List (String × String)}
    {kv : String × String} (h : keysNodup m) : keysNodup (insertEntry m kv) := by
  by_cases hmem : m.any (fun e => e.1 == kv.1) = true
  · unfold keysNodup
    rw [insertEntry_keys_of_mem hmem]
    exact h
  · unfold keysNodup insertEntry
    rw [if_neg hmem, List.map_append]
    simp only [List.map_cons, List.map_nil]
    apply List.Nodup.append h (List.nodup_singleton _)
    intro a ha hb
    simp only [List.mem_singleton] at hb
    subst hb
    apply hmem
    simp only [List.any_eq_true]
    simp only [List.mem_map] at ha
    obtain ⟨e, he, hfst⟩ := ha
    exact ⟨e, he, by simp [hfst]⟩

theorem lookupVal_cons_pos {e0 : String × String} {m : List (String × String)}
    {k : String} (h : e0.1 = k) : lookupVal (e0 :: m) k = some e0.2 := by
  unfold lookupVal
  rw [List.find?_cons_of_pos _ (by simp [h])]
  rfl

theorem lookupVal_cons_neg {e0 : String × String} {m : List (String × String)}
    {k : String} (h : ¬e0.1 = k) : lookupVal (e0 :: m) k = lookupVal m k := by
  unfold lookupVal
  rw [List.find?_cons_of_neg _ (by simp [h])]

theorem objFromEntries_keysNodup :
    ∀ (l m : List (String × String)), keysNodup m →
      keysNodup (l.foldl insertEntry m) := by
  intro l
  induction l with
  | nil => intro m h; exact h
  | cons kv l' ih =>
    intro m h
    exact ih (insertEntry m kv) (insertEntry_keysNodup h)

theorem foldl_insertEntry_of_fresh :
    ∀ (l m : List (String × String)), keysNodup (m ++ l) →
      l.foldl insertEntry m = m ++ l := by
  intro l
  induction l with
  | nil => intro m _; simp
  | cons kv l' ih =>
    intro m h
    have hfresh : m.any (fun e => e.1 == kv.1) = false := by
      apply Bool.eq_false_iff.mpr
      intro hany
      simp only [List.any_eq_true, beq_iff_eq] at hany
      obtain ⟨e, he, hk⟩ := hany
      unfold keysNodup at h
      rw [List.map_append] at h
      have h1 : kv.1 ∈ m.map Prod.fst := by
        simp only [List.mem_map]
        exact ⟨e, he, hk⟩
      have h2 : kv.1 ∈ (kv :: l').map Prod.fst := by simp
      exact (List.disjoint_of_nodup_append h) h1 h2
    have hstep : insertEntry m kv = m ++ [kv] := by
      simp [insertEntry, hfresh]
    rw [List.foldl_cons, hstep]
    have := ih (m ++ [kv]) (by simpa using h)
    rw [this]
    simp

/-- An object with unique keys is a fixpoint of rebuilding from its own
entries. -/
theorem objFromEntries_self {m : List (String × String)} (h : keysNodup m) :
    objFromEntries m = m := by
  have := foldl_insertEntry_of_fresh m [] (by simpa using h)
  simpa [objFromEntries] using this

theorem entry_eq_of_lookup :
    ∀ {m : List (String × String)} {k : String} {v : String},
      keysNodup m → lookupVal m k = some v →
      ∀ e ∈ m, e.1 = k → e = (k, v) := by
  intro m
  induction m with
  | nil => intro k v _ h e he; cases he
  | cons e0 m' ih =>
    intro k v hnd hlk e he hk
    unfold keysNodup at hnd
    simp only [List.map_cons, List.nodup_cons] at hnd
    by_cases h0 : e0.1 = k
    · rw [lookupVal_cons_pos h0] at hlk
      injection hlk with hv
      rcases List.mem_cons.mp he with he0 | he'
      · rw [he0]
        have heta : e0 = (e0.1, e0.2) := rfl
        rw [heta, h0, hv]
      · exfalso
        apply hnd.1
        have : e.1 ∈ m'.map Prod.fst := List.mem_map.mpr ⟨e, he', rfl⟩
        rw [hk, ← h0] at this
        exact this
    · rw [lookupVal_cons_neg h0] at hlk
      rcases List.mem_cons.mp he with he0 | he'
      · subst he0; exact absurd hk h0
      · exact ih hnd.2 hlk e he' hk

/-- Assigning a key its current value leaves the object unchanged. -/
theorem insertEntry_id {m : List (String × String)} {k v : String}
    (hnd : keysNodup m) (hlk : lookupVal m k = some v) :
    insertEntry m (k, v) = m := by
  have hany : m.any (fun e => e.1 == k) = true := by
    simp only [lookupVal, Option.map_eq_some'] at hlk
    obtain ⟨e, hfind, _⟩ := hlk
    have := List.find?_some hfind
    have hmem := List.mem_of_find?_eq_some hfind
    simp only [List.any_eq_true]
    exact ⟨e, hmem, this⟩
  simp only [insertEntry, hany, if_true]
  conv_rhs => rw [← List.map_id m]
  apply List.map_congr_left
  intro e he
  by_cases hek : e.1 = k
  · simp only [hek, if_true]
    exact (entry_eq_of_lookup hnd hlk e he hek).symm
  · simp [hek]

theorem lookupVal_map_update {kv : String × String} {k : String}
    (h : kv.1 ≠ k) :
    ∀ (m : List (String × String)),
      lookupVal (m.map (fun e => if e.1 = kv.1 then kv else e)) k =
        lookupVal m k := by
  intro m
  induction m with
  | nil => rfl
  | cons e0 m' ih =>
    rw [List.map_cons]
    by_cases h0 : e0.1 = kv.1
    · rw [if_pos h0]
      rw [lookupVal_cons_neg h]
      rw [lookupVal_cons_neg (h0 ▸ h : ¬e0.1 = k)]
      exact ih
    · rw [if_neg h0]
      by_cases hek : e0.1 = k
      · rw [lookupVal_cons_pos hek, lookupVal_cons_pos hek]
      · rw [lookupVal_cons_neg hek, lookupVal_cons_neg hek]
        exact ih

theorem lookupVal_append_single {kv : String × String} {k : String}
    (h : kv.1 ≠ k) :
    ∀ (m : List (String × String)),
      lookupVal (m ++ [kv]) k = lookupVal m k := by
  intro m
  induction m with
  | nil => rw [List.nil_append, lookupVal_cons_neg h]
  | cons e0 m' ih =>
    rw [List.cons_append]
    by_cases hek : e0.1 = k
    · rw [lookupVal_cons_pos hek, lookupVal_cons_pos hek]
    · rw [lookupVal_cons_neg hek, lookupVal_cons_neg hek]
      exact ih

theorem lookupVal_insertEntry_other {m : List (String × String)}
    {kv : String × String} {k : String} (h : kv.1 ≠ k) :
    lookupVal (insertEntry m kv) k = lookupVal m k := by
  unfold insertEntry
  by_cases hany : m.any (fun e => e.1 == kv.1) = true
  · rw [if_pos hany]
    exact lookupVal_map_update h m
  · rw [if_neg hany]
    exact lookupVal_append_single h m

theorem lookupVal_map_update_self {k v : String} :
    ∀ (m : List (String × String)), m.any (fun e => e.1 == k) = true →
      lookupVal (m.map (fun e => if e.1 = k then (k, v) else e)) k = some v := by
  intro m
  induction m with
  | nil => intro hany; simp at hany
  | cons e0 m' ih =>
    intro hany
    rw [List.map_cons]
    by_cases h0 : e0.1 = k
    · rw [if_pos h0]
      exact lookupVal_cons_pos rfl
    · rw [if_neg h0, lookupVal_cons_neg h0]
      simp only [List.any_cons, Bool.or_eq_true] at hany
      rcases hany with h0' | hany'
      · exact absurd (by simpa using h0') h0
      · exact ih hany'

theorem lookupVal_append_single_self {k v : String} :
    ∀ (m : List (String × String)), m.any (fun e => e.1 == k) = false →
      lookupVal (m ++ [((k : String), v)]) k = some v := by
  intro m
  induction m with
  | nil =>
    intro _
    rw [List.nil_append]
    exact lookupVal_cons_pos rfl
  | cons e0 m' ih =>
    intro hany
    simp only [List.any_cons, Bool.or_eq_false_iff] at hany
    rw [List.cons_append, lookupVal_cons_neg (by simpa using hany.1)]
    exact ih hany.2

theorem lookupVal_insertEntry_self (m : List (String × String)) (k v : String) :
    lookupVal (insertEntry m (k, v)) k = some v := by
  unfold insertEntry
  by_cases hany : m.any (fun e => e.1 == k) = true
  · rw [if_pos hany]
    exact lookupVal_map_update_self m hany
  · rw [if_neg hany]
    exact lookupVal_append_single_self m (Bool.eq_false_iff.mpr hany)

/-- Folding assignments whose keys all differ from `k` leaves `o[k]`
unchanged. -/
theorem lookupVal_foldl_fresh :
    ∀ (d : List (String × String)) (m : List (String × String)) (k : String),
      (∀ e ∈ d, e.1 ≠ k) →
      lookupVal (d.foldl insertEntry m) k = lookupVal m k := by
  intro d
  induction d with
  | nil => intro m k _; rfl
  | cons e d'' ih =>
    intro m k hne
    rw [List.foldl_cons]
    rw [ih (insertEntry m e) k (fun x hx => hne x (List.mem_cons_of_mem _ hx))]
    exact lookupVal_insertEntry_other (hne e (List.mem_cons_self _ _))

/-- After folding a unique-keyed batch of assignments, every assigned key
reads back its assigned value. -/
theorem lookupVal_foldl_insertEntry :
    ∀ (d : List (String × String)) (m : List (String × String))
      (k v : String), (d.map Prod.fst).Nodup → (k, v) ∈ d →
      lookupVal (d.foldl insertEntry m) k = some v := by
  intro d
  induction d with
  | nil => intro m k v _ h; cases h
  | cons kv d' ih =>
    intro m k v hnd hmem
    simp only [List.map_cons, List.nodup_cons] at hnd
    rw [List.foldl_cons]
    rcases List.mem_cons.mp hmem with h0 | h'
    · subst h0
      have hnotin : ∀ e ∈ d', e.1 ≠ k := by
        intro e he hek
        apply hnd.1
        exact hek ▸ List.mem_map.mpr ⟨e, he, rfl⟩
      rw [lookupVal_foldl_fresh d' (insertEntry m (k, v)) k hnotin]
      exact lookupVal_insertEntry_self m k v
    · exact ih (insertEntry m kv) k v hnd.2 h'

/-- Folding assignments that all read back their own values is the
identity. -/
theorem foldl_insertEntry_id :
    ∀ (d : List (String × String)) (m : List (String × String)),
      keysNodup m → (∀ e ∈ d, lookupVal m e.1 = some e.2) →
      d.foldl insertEntry m = m := by
  intro d
  induction d with
  | nil => intro m _ _; rfl
  | cons kv d' ih =>
    intro m hnd hall
    rw [List.foldl_cons]
    have h0 : insertEntry m kv = m := by
      have := hall kv (List.mem_cons_self _ _)
      have hid := insertEntry_id hnd this
      rwa [show ((kv.1, kv.2) : String × String) = kv from rfl] at hid
    rw [h0]
    exact ih m hnd (fun e he => hall e (List.mem_cons_of_mem _ he))

/-- Idempotence of the JS spread-merge: merging the same unique-keyed batch
twice gives the same object as merging it once. -/
theorem objMerge_idem {d : List (String × String)}
    (hnd : (d.map Prod.fst).Nodup) (m : List (String × String)) :
    objMerge (objMerge m d) d = objMerge m d := by
  have hM1 : keysNodup (objMerge m d) := by
    have := objFromEntries_keysNodup (m ++ d) [] (by simp [keysNodup])
    simpa [objMerge, objFromEntries] using this
  have h1 : objMerge (objMerge m d) d =
      d.foldl insertEntry (objFromEntries (objMerge m d)) := by
    simp [objMerge, objFromEntries, List.foldl_append]
  rw [h1, objFromEntries_self hM1]
  apply foldl_insertEntry_id d (objMerge m d) hM1
  intro e he
  have h2 : objMerge m d = d.foldl insertEntry (m.foldl insertEntry []) := by
    simp [objMerge, objFromEntries, List.foldl_append]
  rw [h2]
  have heta : e = (e.1, e.2) := rfl
  rw [heta]
  exact lookupVal_foldl_insertEntry d (m.foldl insertEntry []) e.1 e.2 hnd
    (heta ▸ he)

/-! ## `scripts/update-packagejson.js` — dependency synchronisation -/

namespace UpdatePackageJson

/-- The parts of a parsed `package.json` manifest the updater touches, plus
everything else (preserved verbatim). -/
structure Pkg where
  dependencies : List (String × String)
  devDependencies : List (String × String)
  otherFields : List (String × String)
  deriving DecidableEq, Repr

/-- The Bun variant of `ensureDeps`:
`pkg[field] = { ...pkg[field], ...deps }` where `field` is selected by the
`dev` flag. -/
def ensureDeps (deps : List (String × String)) (dev : Bool) (pkg : Pkg) : Pkg :=
  if dev then { pkg with devDependencies := objMerge pkg.devDependencies deps }
  else { pkg with dependencies := objMerge pkg.dependencies deps }

/-- `JSON.stringify(pkg, null, 2) + "\n"`, abstracted to any fixed rendering
of the manifest structure: the written file content is a function of the
structure alone. -/
def serializePkg (pkg : Pkg) : String :=
  let block := fun (m : List (String × String)) =>
    String.intercalate "," (m.map (fun e => e.1 ++ ":" ++ e.2))
  "\x7bdeps:\x7b" ++ block pkg.dependencies ++ "\x7d,devDeps:\x7b" ++
    block pkg.devDependencies ++ "\x7d,rest:\x7b" ++
    block pkg.otherFields ++ "\x7d\x7d\n"

/-- A manifest file on disk: either it parses to a `Pkg`, or `JSON.parse`
throws on it. -/
inductive JsonFile
  | ok (pkg : Pkg)
  | malformed (raw : String)
  deriving DecidableEq, Repr

/-- Per-target outcome of the Node variant of `ensureDeps`
(`fs.existsSync` guard, `JSON.parse` in `try`, `process.exit(1)` in
`catch`). -/
inductive NodeFileOutcome
  | skippedMissing
  | fatalParse
  | written (p : Pkg)
  deriving DecidableEq, Repr

/-- The Node variant's per-file behaviour: a missing file is warned about and
skipped; a manifest that fails to parse is fatal; otherwise the assignment
loop `pkg[section][name] = version` runs and the file is written. -/
def ensureDepsNodeFile (deps : List (String × String)) (dev : Bool)
    (file : Option JsonFile) : NodeFileOutcome :=
  match file with
  | none => NodeFileOutcome.skippedMissing
  | some (JsonFile.malformed _) => NodeFileOutcome.fatalParse
  | some (JsonFile.ok pkg) =>
    NodeFileOutcome.written
      (if dev then { pkg with devDependencies :=
                      deps.foldl insertEntry pkg.devDependencies }
       else { pkg with dependencies := deps.foldl insertEntry pkg.dependencies })

/-- The Node script's top-level sequence of `ensureDeps` calls: targets are
processed in order; `process.exit(1)` on the first parse failure abandons the
remaining targets.  Returns the per-target outcomes actually reached and the
process exit code. -/
def nodeUpdaterRun :
    List (Option JsonFile × List (String × String) × Bool) →
      List NodeFileOutcome × Nat
  | [] => ([], 0)
  | (file, deps, dev) :: rest =>
    match ensureDepsNodeFile deps dev file with
    | NodeFileOutcome.fatalParse => ([NodeFileOutcome.fatalParse], 1)
    | o =>
      let r := nodeUpdaterRun rest
      (o :: r.1, r.2)

end UpdatePackageJson

/-! ## `codemods/transform-package-json.js` — per-file catch-and-continue -/

namespace TransformPackageJson

open UpdatePackageJson

/-- One file of the codemod: the whole body runs inside `try`; a `JSON.parse`
failure is caught, logged, and the file is left unwritten (`none`); a parsed
manifest is transformed and written (`some`).  The transformation itself is a
parameter `t` — the claim under verification concerns only the error path, so
it must hold for the script's actual transformation in particular. -/
def transformPackageJsonFile (t : Pkg → Pkg) (f : JsonFile) : Option Pkg :=
  match f with
  | JsonFile.malformed _ => none
  | JsonFile.ok pkg => some (t pkg)

/-- The codemod's `main`: every discovered `package.json` is processed; a
parse failure on one file never stops the loop. -/
def transformPackageJsonRun (t : Pkg → Pkg) (files : List JsonFile) :
    List (Option Pkg) :=
  files.map (transformPackageJsonFile t)

end TransformPackageJson

/-! ## Fan-out orchestration (`bun-install-all.js`, `bun-test-all.js`,
`bun-build-all.js`)

`runConcurrent` spawns `limit` workers that pull tasks from a shared index;
each worker awaits one child process at a time.  The operational model below
captures every possible interleaving: a `start` step hands the next task to
an idle worker, a `finish` step completes any running task.  Task outcomes
(child exit codes) are fixed per task, which is exactly the code's situation:
a child process's result does not depend on when it is awaited. -/

namespace Pool

/-- Scheduler state of `runConcurrent`: the shared `idx`, the indices of
tasks currently being awaited (one per busy worker), the number of idle
workers, and the finished tasks in completion order. -/
structure PoolState where
  nextIdx : Nat
  running : List Nat
  idle : Nat
  done : List Nat
  deriving DecidableEq, Repr

/-- Initial state: no task started, `k` idle workers
(`Array.from({length: limit}, worker)`). -/
def initState (k : Nat) : PoolState := ⟨0, [], k, []⟩

/-- One scheduler step over `n` tasks. -/
inductive PoolStep (n : Nat) : PoolState → PoolState → Prop
  | start (s : PoolState) (h1 : 0 < s.idle) (h2 : s.nextIdx < n) :
      PoolStep n s ⟨s.nextIdx + 1, s.nextIdx :: s.running, s.idle - 1, s.done⟩
  | finish (s : PoolState) (i : Nat) (h : i ∈ s.running) :
      PoolStep n s ⟨s.nextIdx, s.running.erase i, s.idle + 1, i :: s.done⟩

/-- Reachability from the initial state with `k` workers. -/
def Reach (k n : Nat) (s : PoolState) : Prop :=
  Relation.ReflTransGen (PoolStep n) (initState k) s

/-- A run is complete when every task has been handed out and every worker
has finished (then each worker's `while` loop exits). -/
def Complete (n : Nat) (s : PoolState) : Prop :=
  s.nextIdx = n ∧ s.running = []

/-- The `hadError` aggregate of `bun-install-all.js`: true iff some finished
task's child exited non-zero (`outcomes` holds `true` for success). -/
def hadError (outcomes : List Bool) (s : PoolState) : Bool :=
  s.done.any (fun i => !(outcomes.getD i true))

/-- The final exit status of `bun-install-all.js`: `error(...)` (exit 1) when
`hadError`, otherwise the success message and exit 0. -/
def exitCodeOf (outcomes : List Bool) (s : PoolState) : Nat :=
  if hadError outcomes s then 1 else 0

/-- The pool invariant: workers are conserved, and the started tasks are
exactly `0, …, nextIdx-1`, partitioned into running and done. -/
def Inv (k n : Nat) (s : PoolState) : Prop :=
  s.running.length + s.idle = k ∧
    (s.running ++ s.done).Perm (List.range s.nextIdx) ∧ s.nextIdx ≤ n

theorem inv_init (k n : Nat) : Inv k n (initState k) :=
  ⟨by simp [initState], by simp [initState], Nat.zero_le n⟩

theorem inv_step {k n : Nat} {s s' : PoolState} (hs : Inv k n s)
    (hstep : PoolStep n s s') : Inv k n s' := by
  obtain ⟨h1, h2, h3⟩ := hs
  cases hstep with
  | start hidle hlt =>
    refine ⟨by simp only [List.length_cons]; omega, ?_,
      by simp only []; omega⟩
    simp only [List.cons_append]
    rw [List.range_succ]
    exact ((List.perm_append_singleton _ _).symm.trans
      (h2.append_right [s.nextIdx])).symm.symm
  | finish i hi =>
    refine ⟨?_, ?_, h3⟩
    · have hlen : (s.running.erase i).length = s.running.length - 1 :=
        List.length_erase_of_mem hi
      have hpos : 0 < s.running.length := List.length_pos_of_mem hi
      simp only [hlen]
      omega
    · have p1 : (s.running.erase i ++ i :: s.done).Perm
          (i :: (s.running.erase i ++ s.done)) := List.perm_middle
      have p2 : (i :: s.running.erase i).Perm s.running :=
        (List.perm_cons_erase hi).symm
      have p3 : (i :: (s.running.erase i ++ s.done)).Perm
          (s.running ++ s.done) := by
        have hp := p2.append_right s.done
        simpa using hp
      exact p1.trans (p3.trans h2)

theorem inv_reach {k n : Nat} {s : PoolState} (h : Reach k n s) : Inv k n s := by
  induction h with
  | refl => exact inv_init k n
  | tail _ hstep ih => exact inv_step ih hstep

/-- Concurrency bound: a reachable state never has more than `k` tasks in
flight. -/
theorem running_le_k {k n : Nat} {s : PoolState} (h : Reach k n s) :
    s.running.length ≤ k := by
  have := (inv_reach h).1
  omega

/-- In a complete run every task was finished exactly once. -/
theorem done_perm_range {k n : Nat} {s : PoolState} (h : Reach k n s)
    (hc : Complete n s) : s.done.Perm (List.range n) := by
  have h2 := (inv_reach h).2.1
  rw [hc.2, hc.1] at h2
  simpa using h2

/-- The aggregate is schedule- and concurrency-independent: in any complete
run it equals "some outcome is a failure". -/
theorem hadError_eq {k n : Nat} {outcomes : List Bool}
    (hlen : outcomes.length = n) {s : PoolState} (h : Reach k n s)
    (hc : Complete n s) :
    hadError outcomes s = outcomes.any (fun b => !b) := by
  have hperm := done_perm_range h hc
  unfold hadError
  have hmem : ∀ (p : Nat → Bool), s.done.any p = (List.range n).any p := by
    intro p
    rcases hb : (List.range n).any p with _ | _
    · rcases hd : s.done.any p with _ | _
      · rfl
      · exfalso
        simp only [List.any_eq_true] at hd
        obtain ⟨i, hi, hpi⟩ := hd
        have : i ∈ List.range n := hperm.mem_iff.mp hi
        have : (List.range n).any p = true := List.any_eq_true.mpr ⟨i, this, hpi⟩
        rw [this] at hb; cases hb
    · simp only [List.any_eq_true] at hb ⊢
      obtain ⟨i, hi, hpi⟩ := hb
      exact ⟨i, hperm.mem_iff.mpr hi, hpi⟩
  rw [hmem]
  rcases ho : outcomes.any (fun b => !b) with _ | _
  · apply Bool.eq_false_iff.mpr
    intro hcon
    simp only [List.any_eq_true] at hcon
    obtain ⟨i, hi, hpi⟩ := hcon
    have hilt : i < n := List.mem_range.mp hi
    have hb2 : i < outcomes.length := by omega
    have hig : outcomes.getD i true = outcomes[i] :=
      List.getD_eq_getElem outcomes true hb2
    rw [hig] at hpi
    have hmem2 : outcomes[i] ∈ outcomes := List.getElem_mem hb2
    have := List.any_eq_true.mpr ⟨_, hmem2, hpi⟩
    rw [ho] at this; cases this
  · simp only [List.any_eq_true] at ho ⊢
    obtain ⟨b, hb, hbf⟩ := ho
    obtain ⟨i, hilt, hgeti⟩ := List.mem_iff_getElem.mp hb
    refine ⟨i, List.mem_range.mpr (by omega), ?_⟩
    rw [List.getD_eq_getElem _ _ (by omega), hgeti]
    exact hbf

end Pool

/-- `Number.isInteger(c) && c > 0 ? c : 1` applied to the parsed
`--concurrency=N` value of `bun-install-all.js`/`bun-build-all.js`.  The
outer `Option` is flag presence, the inner is the `parseInt` result (`none`
for `NaN`); `Number.isInteger` rejects `undefined` and `NaN`. -/
def resolveConcurrency : Option (Option Int) → Int
  | some (some n) => if 0 < n then n else 1
  | _ => 1

/-- `const { exitCode } = await proc.exited` in `bun-test-all.js`,
`bun-build-all.js` and `run-codemods.js`: `Subprocess.exited` resolves to a
*number* (the exit code), and destructuring the `exitCode` property of a
number yields `undefined`. -/
def jsDestructureExitCode (_exit : Nat) : Option Nat := none

/-- JS `x !== 0` where `x : number | undefined`. -/
def jsStrictNeqZero : Option Nat → Bool
  | none => true
  | some v => v != 0

/-- Fuel-driven chunking, `list.slice(i, i + jobs)` batches of the test
loop. -/
def chunksGo (j : Nat) : Nat → List Nat → List (List Nat)
  | _, [] => []
  | 0, l => [l]
  | f + 1, l => l.take j :: chunksGo j f (l.drop j)

/-- The batches `pkgFiles.slice(i, i + jobs)` of `bun-test-all.js`. -/
def chunksOf (j : Nat) (l : List Nat) : List (List Nat) := chunksGo j l.length l

theorem chunksGo_flatten {j : Nat} (hj : 1 ≤ j) :
    ∀ (f : Nat) (l : List Nat), l.length ≤ f → (chunksGo j f l).flatten = l := by
  intro f
  induction f with
  | zero =>
    intro l hl
    rw [List.length_eq_zero.mp (Nat.le_zero.mp hl)]
    rfl
  | succ f' ih =>
    intro l hl
    cases l with
    | nil => rfl
    | cons c rest =>
      show ((c :: rest).take j :: chunksGo j f' ((c :: rest).drop j)).flatten =
        c :: rest
      simp only [List.flatten_cons]
      rw [ih ((c :: rest).drop j)
        (by simp only [List.length_drop, List.length_cons] at hl ⊢; omega)]
      exact List.take_append_drop j (c :: rest)

/-- Every batch respects the `jobs` bound. -/
theorem chunksGo_length {j : Nat} (hj : 1 ≤ j) :
    ∀ (f : Nat) (l : List Nat), l.length ≤ f →
      ∀ b ∈ chunksGo j f l, b.length ≤ j := by
  intro f
  induction f with
  | zero =>
    intro l hl b hb
    rw [List.length_eq_zero.mp (Nat.le_zero.mp hl)] at hb
    cases hb
  | succ f' ih =>
    intro l hl b hb
    cases l with
    | nil => cases hb
    | cons c rest =>
      rcases List.mem_cons.mp hb with h0 | h'
      · rw [h0]
        exact le_trans (List.length_take_le _ _) (Nat.le_refl _)
      · exact ih ((c :: rest).drop j)
          (by simp only [List.length_drop, List.length_cons] at *; omega) b h'

/-- `bun-test-all.js`: batches run to completion whatever the recorded
results are; recorded failures accumulate across batches; the summary exits 1
iff any failure was recorded. -/
def testAllRun (jobs : Nat) (exits : List Nat) : List Nat × Nat :=
  let failures := (chunksOf jobs exits).foldl
    (fun acc batch =>
      acc ++ batch.filter (fun e => jsStrictNeqZero (jsDestructureExitCode e)))
    []
  (failures, if 0 < failures.length then 1 else 0)

/-- The units actually spawned by the test loop (all of them — a failing unit
only appends to `failures`). -/
def testAllProcessed (jobs : Nat) (exits : List Nat) : List Nat :=
  (chunksOf jobs exits).flatten

/-- `bun-build-all.js` under its default concurrency 1: tasks run in order;
a unit whose recorded exit is nonzero triggers `error(...)`, i.e.
`Bun.exit(1)`, abandoning the remaining units.  Returns the units actually
run and whether the run aborted. -/
def buildAllRun : List Nat → List Nat × Bool
  | [] => ([], false)
  | e :: rest =>
    if jsStrictNeqZero (jsDestructureExitCode e) then ([e], true)
    else
      let r := buildAllRun rest
      (e :: r.1, r.2)

/-! ## `scripts/docker-build.js` — argument parsing -/

namespace DockerBuild

/-- The options object built by `parseArgs` (`build-arg` values may be
`undefined` when `--build-arg` is the last token). -/
structure Options where
  tag : Option (List Char)
  dockerfile : Option (List Char)
  contextDir : Option (List Char)
  buildArgs : List (Option (List Char))
  positional : List (List Char)
  deriving DecidableEq, Repr

def emptyOptions : Options := ⟨none, none, none, [], []⟩

/-- The `parseArgs` loop of `docker-build.js`.  Every `--flag=v` branch
stores `arg.split("=")[1]`, i.e. only the text of `v` before its first
`=`. -/
def parseArgsGo : Options → List (List Char) → Options
  | o, [] => o
  | o, arg :: rest =>
    if ("--build-arg=".toList).isPrefixOf arg then
      parseArgsGo { o with buildArgs := o.buildArgs ++ [some (splitIdx1 '=' [] arg)] } rest
    else if arg = "--build-arg".toList then
      match rest with
      | v :: rest' =>
        parseArgsGo { o with buildArgs := o.buildArgs ++ [some v] } rest'
      | [] => { o with buildArgs := o.buildArgs ++ [none] }
    else if ("--tag=".toList).isPrefixOf arg then
      parseArgsGo { o with tag := some (splitIdx1 '=' [] arg) } rest
    else if ("--dockerfile=".toList).isPrefixOf arg then
      parseArgsGo { o with dockerfile := some (splitIdx1 '=' [] arg) } rest
    else if ("--context=".toList).isPrefixOf arg then
      parseArgsGo { o with contextDir := some (splitIdx1 '=' [] arg) } rest
    else
      parseArgsGo { o with positional := o.positional ++ [arg] } rest

def parseArgs (args : List (List Char)) : Options := parseArgsGo emptyOptions args

end DockerBuild

/-! ## `scripts/run-codemods.js` — discovery and strategic ordering -/

namespace RunCodemods

/-- The strategic execution order (`DESIRED_ORDER`). -/
def DESIRED_ORDER : List String :=
  [ "transform-require-to-import.js",
    "transform-env-access.js",
    "transform-server-index.js",
    "transform-express-routes-to-elysia.js",
    "transform-middleware.js",
    "transform-controllers.js",
    "transform-security-middleware.js",
    "transform-session-auth.js",
    "transform-websockets.js",
    "transform-db-utils.js",
    "transform-package-json.js",
    "transform-tsconfig.js",
    "transform-client-html.js",
    "transform-jest-config.js",
    "transform-ci-config.js",
    "transform-dockerfile.js",
    "transform-docker-compose.js",
    "transform-helm-values.js",
    "transform-eslint-config.js",
    "transform-prettier-config.js",
    "transform-readme.js",
    "transform-telemetry.js",
    "transform-devcontainer.js",
    "transform-husky.js",
    "transform-docker-scripts.js",
    "transform-config-scripts.js",
    "transform-e2e-tests.js" ]

/-- `p.split("/").pop()`: the basename of a codemod path. -/
def basename (p : String) : String :=
  String.mk ((splitOnChar '/' p.toList).getLastD [])

/-- Lexicographic comparison of character lists by code unit, the default
string comparator of JS `Array.prototype.sort` (code-unit and code-point
order coincide on the ASCII codemod names involved). -/
def charListLe : List Char → List Char → Bool
  | [], _ => true
  | _ :: _, [] => false
  | a :: as, b :: bs =>
    if a.toNat < b.toNat then true
    else if b.toNat < a.toNat then false
    else charListLe as bs

/-- String comparison used for the alphabetical fallback order. -/
def strLe (a b : String) : Bool := charListLe a.toList b.toList

theorem charListLe_total : ∀ (a b : List Char),
    charListLe a b = true ∨ charListLe b a = true := by
  intro a
  induction a with
  | nil => intro b; left; rfl
  | cons x as ih =>
    intro b
    cases b with
    | nil => right; rfl
    | cons y bs =>
      simp only [charListLe]
      by_cases h1 : x.toNat < y.toNat
      · left; rw [if_pos h1]
      · by_cases h2 : y.toNat < x.toNat
        · right; rw [if_pos h2]
        · rw [if_neg h1, if_neg h2, if_neg h2, if_neg h1]
          exact ih bs

theorem charListLe_trans : ∀ (a b c : List Char),
    charListLe a b = true → charListLe b c = true → charListLe a c = true := by
  intro a
  induction a with
  | nil => intro b c _ _; rfl
  | cons x as ih =>
    intro b c hab hbc
    cases b with
    | nil => simp [charListLe] at hab
    | cons y bs =>
      cases c with
      | nil => simp [charListLe] at hbc
      | cons z cs =>
        simp only [charListLe] at hab hbc ⊢
        by_cases hxy : x.toNat < y.toNat
        · by_cases hyz : y.toNat < z.toNat
          · rw [if_pos (by omega)]
          · by_cases hzy : z.toNat < y.toNat
            · rw [if_neg hyz, if_pos hzy] at hbc
              cases hbc
            · rw [if_pos (by omega)]
        · by_cases hyx : y.toNat < x.toNat
          · rw [if_neg hxy, if_pos hyx] at hab
            cases hab
          · by_cases hyz : y.toNat < z.toNat
            · rw [if_pos (by omega)]
            · by_cases hzy : z.toNat < y.toNat
              · rw [if_neg hyz, if_pos hzy] at hbc
                cases hbc
              · rw [if_neg (by omega), if_neg (by omega)]
                rw [if_neg hxy, if_neg hyx] at hab
                rw [if_neg hyz, if_neg hzy] at hbc
                exact ih bs cs hab hbc

/-- `byName.delete name`. -/
def mapDelete (m : List (String × String)) (k : String) :
    List (String × String) :=
  m.filter (fun e => e.1 != k)

/-- The body of the `for (const name of DESIRED_ORDER)` loop: when the map
holds `name`, move its path to `ordered` and delete the key. -/
def orderStep (st : List (String × String) × List String) (name : String) :
    List (String × String) × List String :=
  match lookupVal st.1 name with
  | some p => (mapDelete st.1 name, st.2 ++ [p])
  | none => st

/-- `discoverAndOrderCodemods`, parametrised by the glob result `mods`
(the paths found under `codemods/*.js`): build the basename → path map,
pull out `DESIRED_ORDER` entries first, then append the remaining codemods
sorted alphabetically by basename.  (JS `Array.sort` on distinct keys picks
the unique sorted permutation, here realised by `insertionSort`.) -/
def discoverAndOrderCodemods (mods : List String) : List String :=
  let byName := objFromEntries (mods.map (fun p => (basename p, p)))
  let st := DESIRED_ORDER.foldl orderStep (byName, [])
  let remainder := (st.1.map Prod.fst).insertionSort (fun a b => strLe a b = true)
  st.2 ++ remainder.filterMap (fun n => lookupVal st.1 n)

end RunCodemods

/-! ## `codemods/transform-docker-scripts.js` -/

namespace TransformDockerScripts

/-- The default base image (`DEFAULT_BASE`). -/
def DEFAULT_BASE : List Char := "oven/bun:latest".toList

/-- The four injected lines (step 3), for a given resolved base image. -/
def injection (baseImage : List Char) : List (List Char) :=
  [ "# --- begin bun-base-image injection ---".toList,
    (": \"$\x7bBUN_BASE_IMAGE:=".toList ++ baseImage ++ "\x7d\"".toList),
    "export BUN_BASE_IMAGE".toList,
    "# --- end bun-base-image injection ---".toList ]

/-- `lines.join("\n")`. -/
def joinLines : List (List Char) → List Char
  | [] => []
  | [l] => l
  | l :: ls => l ++ '\n' :: joinLines ls

/-- `/^\s*docker build\b/.test(line)`. -/
def isDockerBuildLine (l : List Char) : Bool :=
  ("docker build".toList).isPrefixOf (l.dropWhile wsChar) &&
    !(isWordOpt (((l.dropWhile wsChar).drop 12).head?))

/-- The regex `--build-arg\s+BUN_BASE_IMAGE` at the head of `l`. -/
def hasBuildArgAt (l : List Char) : Bool :=
  ("--build-arg".toList).isPrefixOf l &&
    (let rest := l.drop 11
     !(rest.takeWhile wsChar).isEmpty &&
       ("BUN_BASE_IMAGE".toList).isPrefixOf (rest.dropWhile wsChar))

/-- `.test(line)` for the regex `--build-arg\s+BUN_BASE_IMAGE`: substring search. -/
def hasBuildArgAlready : List Char → Bool
  | [] => false
  | c :: rest => hasBuildArgAt (c :: rest) || hasBuildArgAlready rest

/-- The replacement text appended after the first `docker build` by
`line.replace(/(docker build\b)/, ...)` (in the source's template literal,
`\$` is a plain dollar sign). -/
def INJECT_ARG : List Char := " --build-arg BUN_BASE_IMAGE=$BUN_BASE_IMAGE".toList

/-- `/(docker build\b)/` at the head of `l` (this regex has no left `\b`). -/
def dbMatchAt (l : List Char) : Bool :=
  ("docker build".toList).isPrefixOf l && !(isWordOpt ((l.drop 12).head?))

/-- Replace the first `/(docker build\b)/` occurrence with
`$1 --build-arg BUN_BASE_IMAGE=$BUN_BASE_IMAGE` (non-global `replace`). -/
def injectAfterFirst : List Char → List Char
  | [] => []
  | c :: rest =>
    if dbMatchAt (c :: rest) then
      "docker build".toList ++ INJECT_ARG ++ ((c :: rest).drop 12)
    else c :: injectAfterFirst rest

/-- Step 5's per-line map. -/
def transformDockerLine (l : List Char) : List Char :=
  if isDockerBuildLine l && !(hasBuildArgAlready l) then injectAfterFirst l
  else l

/-- The full text transformation of `transformFile` in
`codemods/transform-docker-scripts.js`: split into lines, ensure a shebang,
inject the `BUN_BASE_IMAGE` block unless `/\bBUN_BASE_IMAGE\b/` already
occurs, then rebuild the text from the (injected) `lines` array with the
`docker build` per-line rewrite.  (The step-4 npm/yarn replacements are
applied to the intermediate `updated` string and then discarded, because
step 5 reassigns `updated` from `lines`; the model reflects the code.)
Note the source's `shebangIdx` keeps the value `-1` after the default
shebang is unshifted, so the injection then lands at index 0 — before the
inserted shebang. -/
def dockerTransform (baseImage : List Char) (original : List Char) :
    List Char :=
  let lines0 := splitOnChar '\n' original
  let shebangIdx := lines0.findIdx? (fun l => ("#!".toList).isPrefixOf l)
  let lines1 := match shebangIdx with
    | none => "#!/usr/bin/env bash".toList :: lines0
    | some _ => lines0
  let insertPos : Nat := match shebangIdx with | none => 0 | some i => i + 1
  let lines2 :=
    if hasMatchFrom ("BUN_BASE_IMAGE".toList) none original then lines1
    else lines1.take insertPos ++ injection baseImage ++ lines1.drop insertPos
  joinLines (lines2.map transformDockerLine)

/-- Events reported per file. -/
inductive DockerEvent
  | noChange
  | updated
  deriving DecidableEq, Repr

/-- Observable per-file effects: write-back and the `chmod +x` that follows
it. -/
structure DockerEffects where
  wrote : Bool
  chmodApplied : Bool
  event : DockerEvent
  deriving DecidableEq, Repr

/-- `transformFile` of the codemod: steps 1–5 compute `updated`; step 6 skips
the write when `updated === original`; step 7 writes and re-applies the exec
bit otherwise. -/
def transformFile (baseImage original : List Char) :
    DockerEffects × List Char :=
  let updated := dockerTransform baseImage original
  if updated = original then (⟨false, false, DockerEvent.noChange⟩, original)
  else (⟨true, true, DockerEvent.updated⟩, updated)

end TransformDockerScripts

namespace RunCodemods

theorem lookupVal_none_keys {m : List (String × String)} {n : String}
    (h : lookupVal m n = none) : ∀ e ∈ m, e.1 ≠ n := by
  intro e he hek
  induction m with
  | nil => cases he
  | cons e0 m' ih =>
    by_cases h0 : e0.1 = n
    · rw [lookupVal_cons_pos h0] at h
      cases h
    · rw [lookupVal_cons_neg h0] at h
      rcases List.mem_cons.mp he with he0 | he'
      · exact h0 (he0 ▸ hek)
      · exact ih h he'

theorem lookupVal_mapDelete_other {m : List (String × String)}
    {k k' : String} (h : k' ≠ k) :
    lookupVal (mapDelete m k) k' = lookupVal m k' := by
  induction m with
  | nil => rfl
  | cons e0 m' ih =>
    unfold mapDelete at ih ⊢
    rw [List.filter_cons]
    by_cases h0 : e0.1 = k
    · rw [if_neg (by simp [h0])]
      rw [lookupVal_cons_neg (by rw [h0]; exact fun hc => h hc.symm)]
      exact ih
    · rw [if_pos (by simp [h0])]
      by_cases hek : e0.1 = k'
      · rw [lookupVal_cons_pos hek, lookupVal_cons_pos hek]
      · rw [lookupVal_cons_neg hek, lookupVal_cons_neg hek]
        exact ih

theorem filterMap_congr_mem {α β : Type} {f g : α → Option β} :
    ∀ {l : List α}, (∀ a ∈ l, f a = g a) → l.filterMap f = l.filterMap g := by
  intro l
  induction l with
  | nil => intro _; rfl
  | cons a l' ih =>
    intro h
    have ha := h a (List.mem_cons_self _ _)
    have ht := ih (fun x hx => h x (List.mem_cons_of_mem _ hx))
    rcases hfa : f a with _ | b
    · rw [List.filterMap_cons_none hfa,
        List.filterMap_cons_none (by rw [← ha, hfa]), ht]
    · rw [List.filterMap_cons_some hfa,
        List.filterMap_cons_some (by rw [← ha, hfa]), ht]

/-- Specification of the `DESIRED_ORDER` loop: processing a duplicate-free
batch of names removes exactly those keys from the map and appends exactly
the found paths, in batch order. -/
theorem orderLoop_spec :
    ∀ (ds : List String) (m : List (String × String)) (acc : List String),
      ds.Nodup →
      ds.foldl orderStep (m, acc) =
        (m.filter (fun e => !(decide (e.1 ∈ ds))),
          acc ++ ds.filterMap (fun n => lookupVal m n)) := by
  intro ds
  induction ds with
  | nil =>
    intro m acc _
    simp
  | cons n ds' ih =>
    intro m acc hnd
    simp only [List.nodup_cons] at hnd
    rw [List.foldl_cons]
    rcases hl : lookupVal m n with _ | p
    · rw [show orderStep (m, acc) n = (m, acc) by simp [orderStep, hl]]
      rw [ih m acc hnd.2, Prod.mk.injEq]
      constructor
      · apply List.filter_congr
        intro e he
        have hne := lookupVal_none_keys hl e he
        simp [List.mem_cons, hne]
      · rw [List.filterMap_cons_none hl]
    · rw [show orderStep (m, acc) n = (mapDelete m n, acc ++ [p]) by
        simp [orderStep, hl]]
      rw [ih (mapDelete m n) (acc ++ [p]) hnd.2, Prod.mk.injEq]
      constructor
      · unfold mapDelete
        rw [List.filter_filter]
        apply List.filter_congr
        intro e _
        by_cases hen : e.1 = n
        · simp [hen]
        · by_cases hed : e.1 ∈ ds'
          · simp [hen, hed]
          · simp [hen, hed]
      · rw [List.filterMap_cons_some hl, List.append_assoc,
          List.singleton_append]
        congr 1
        congr 1
        apply filterMap_congr_mem
        intro n' hn'
        exact lookupVal_mapDelete_other (fun hc => hnd.1 (hc ▸ hn'))

/-- Looking a name up in the basename → path map is `mods.find?` on the
basename. -/
theorem lookupVal_entries (mods : List String) (n : String) :
    lookupVal (mods.map (fun p => (basename p, p))) n =
      mods.find? (fun p => basename p == n) := by
  unfold lookupVal
  rw [List.find?_map]
  rcases hf : mods.find? ((fun e : String × String => e.1 == n) ∘
      (fun p => (basename p, p))) with _ | p
  · rw [show mods.find? (fun p => basename p == n) = none from hf]
    rfl
  · rw [show mods.find? (fun p => basename p == n) = some p from hf]
    rfl

theorem entries_key {mods : List String} :
    ∀ e ∈ mods.map (fun p => (basename p, p)), e.1 = basename e.2 := by
  intro e he
  obtain ⟨p, _, hpe⟩ := List.mem_map.mp he
  rw [← hpe]

theorem mapFst_filterMap_lookup :
    ∀ {m : List (String × String)}, keysNodup m →
      (m.map Prod.fst).filterMap (fun n => lookupVal m n) = m.map Prod.snd := by
  intro m
  induction m with
  | nil => intro _; rfl
  | cons e m' ih =>
    intro hnd
    unfold keysNodup at hnd
    simp only [List.map_cons, List.nodup_cons] at hnd
    rw [List.map_cons, List.map_cons,
      List.filterMap_cons_some (lookupVal_cons_pos rfl)]
    congr 1
    rw [filterMap_congr_mem (g := fun n => lookupVal m' n) ?hcongr]
    · exact ih hnd.2
    case hcongr =>
      intro n hn
      apply lookupVal_cons_neg
      intro hc
      exact hnd.1 (hc ▸ hn)

theorem filterMap_nodup_of_key {D : List String} {f : String → Option String}
    {key : String → String} (hD : D.Nodup)
    (hf : ∀ n p, f n = some p → key p = n) : (D.filterMap f).Nodup := by
  induction D with
  | nil => exact List.nodup_nil
  | cons n D' ih =>
    simp only [List.nodup_cons] at hD
    rcases hfn : f n with _ | p
    · rw [List.filterMap_cons_none hfn]
      exact ih hD.2
    · rw [List.filterMap_cons_some hfn]
      apply List.nodup_cons.mpr
      refine ⟨?_, ih hD.2⟩
      intro hmem
      obtain ⟨n', hn', hfn'⟩ := List.mem_filterMap.mp hmem
      have h1 := hf n p hfn
      have h2 := hf n' p hfn'
      exact hD.1 (by rw [← h1, h2]; exact hn')

theorem find?_unique {l : List String} {pred : String → Bool} {q : String}
    (hq : q ∈ l) (hpq : pred q = true)
    (huniq : ∀ x ∈ l, pred x = true → x = q) : l.find? pred = some q := by
  induction l with
  | nil => cases hq
  | cons x l' ih =>
    by_cases hx : pred x = true
    · rw [List.find?_cons_of_pos _ hx]
      rw [huniq x (List.mem_cons_self _ _) hx]
    · rw [List.find?_cons_of_neg _ (by simp [hx])]
      rcases List.mem_cons.mp hq with h0 | h'
      · rw [← h0] at hx
        exact absurd hpq hx
      · exact ih h' (fun x' hx' hpx' => huniq x' (List.mem_cons_of_mem _ hx') hpx')

theorem pairwise_filterMap_of {α β : Type} {R : α → α → Prop}
    {S : β → β → Prop} {f : α → Option β} :
    ∀ {l : List α}, l.Pairwise R →
      (∀ a b x y, a ∈ l → b ∈ l → f a = some x → f b = some y → R a b → S x y) →
      (l.filterMap f).Pairwise S := by
  intro l
  induction l with
  | nil => intro _ _; exact List.Pairwise.nil
  | cons a l' ih =>
    intro hp hrel
    have hp' := List.pairwise_cons.mp hp
    rcases hfa : f a with _ | x
    · rw [List.filterMap_cons_none hfa]
      exact ih hp'.2 (fun a' b' x' y' ha' hb' => hrel a' b' x' y'
        (List.mem_cons_of_mem _ ha') (List.mem_cons_of_mem _ hb'))
    · rw [List.filterMap_cons_some hfa]
      apply List.pairwise_cons.mpr
      constructor
      · intro y hy
        obtain ⟨b, hb, hfb⟩ := List.mem_filterMap.mp hy
        exact hrel a b x y (List.mem_cons_self _ _)
          (List.mem_cons_of_mem _ hb) hfa hfb (hp'.1 b hb)
      · exact ih hp'.2 (fun a' b' x' y' ha' hb' => hrel a' b' x' y'
          (List.mem_cons_of_mem _ ha') (List.mem_cons_of_mem _ hb'))

end RunCodemods

/-! ## Claim theorems -/

open RunCodemods in
/-- C9: `discoverAndOrderCodemods` returns a permutation of the discovered
codemod paths in which the codemods named in `DESIRED_ORDER` come first, in
exactly `DESIRED_ORDER`'s relative order, followed by the remaining codemods
sorted alphabetically by basename; nothing is dropped or duplicated
(basenames are distinct, as they are for any glob over one directory). -/
theorem codemod_order_invariant (mods : List String)
    (hnd : (mods.map basename).Nodup) :
    (discoverAndOrderCodemods mods).Perm mods ∧
    ∃ partB : List String,
      discoverAndOrderCodemods mods =
        DESIRED_ORDER.filterMap
          (fun n => mods.find? (fun p => basename p == n)) ++ partB ∧
      partB.Perm (mods.filter
        (fun p => !(decide (basename p ∈ DESIRED_ORDER)))) ∧
      partB.Pairwise (fun p q => strLe (basename p) (basename q) = true) := by
  have hkeys : (mods.map (fun p => (basename p, p))).map Prod.fst =
      mods.map basename := by
    rw [List.map_map]
    rfl
  have hknd : keysNodup (mods.map (fun p => (basename p, p))) := by
    unfold keysNodup
    rw [hkeys]
    exact hnd
  have hbyName : objFromEntries (mods.map (fun p => (basename p, p))) =
      mods.map (fun p => (basename p, p)) := objFromEntries_self hknd
  have hD : DESIRED_ORDER.Nodup := by decide
  have hloop := orderLoop_spec DESIRED_ORDER (mods.map (fun p => (basename p, p))) [] hD
  have hdef : discoverAndOrderCodemods mods =
      DESIRED_ORDER.filterMap
        (fun n => lookupVal (mods.map (fun p => (basename p, p))) n) ++
      ((((mods.map (fun p => (basename p, p))).filter
            (fun e => !(decide (e.1 ∈ DESIRED_ORDER)))).map Prod.fst).insertionSort
          (fun a b => strLe a b = true)).filterMap
        (fun n => lookupVal ((mods.map (fun p => (basename p, p))).filter
          (fun e => !(decide (e.1 ∈ DESIRED_ORDER)))) n) := by
    simp only [discoverAndOrderCodemods, hbyName, hloop, List.nil_append]
  -- Shorthand facts about the leftover map R.
  have hRsub : ∀ e ∈ (mods.map (fun p => (basename p, p))).filter
      (fun e => !(decide (e.1 ∈ DESIRED_ORDER))),
      e ∈ mods.map (fun p => (basename p, p)) :=
    fun e he => List.mem_of_mem_filter he
  have hRkey : ∀ e ∈ (mods.map (fun p => (basename p, p))).filter
      (fun e => !(decide (e.1 ∈ DESIRED_ORDER))), e.1 = basename e.2 :=
    fun e he => entries_key e (hRsub e he)
  have hRmapfst : ((mods.map (fun p => (basename p, p))).filter
      (fun e => !(decide (e.1 ∈ DESIRED_ORDER)))).map Prod.fst =
      (mods.map basename).filter (fun k => !(decide (k ∈ DESIRED_ORDER))) := by
    rw [List.filter_map (fun p : String => (basename p, p)) mods,
      List.map_map, List.filter_map basename mods]
    rfl
  have hRknd : keysNodup ((mods.map (fun p => (basename p, p))).filter
      (fun e => !(decide (e.1 ∈ DESIRED_ORDER)))) := by
    unfold keysNodup
    rw [hRmapfst]
    exact hnd.filter _
  have hRsnd : ((mods.map (fun p => (basename p, p))).filter
      (fun e => !(decide (e.1 ∈ DESIRED_ORDER)))).map Prod.snd =
      mods.filter (fun p => !(decide (basename p ∈ DESIRED_ORDER))) := by
    rw [List.filter_map (fun p : String => (basename p, p)) mods,
      List.map_map]
    exact List.map_id _
  have hfind : ∀ n, lookupVal (mods.map (fun p => (basename p, p))) n =
      mods.find? (fun p => basename p == n) := lookupVal_entries mods
  have hlookR_key : ∀ (n p : String),
      lookupVal ((mods.map (fun q => (basename q, q))).filter
        (fun e => !(decide (e.1 ∈ DESIRED_ORDER)))) n = some p →
      basename p = n := by
    intro n p h
    unfold lookupVal at h
    rcases hf : ((mods.map (fun q => (basename q, q))).filter
        (fun e => !(decide (e.1 ∈ DESIRED_ORDER)))).find?
        (fun e => e.1 == n) with _ | e
    · rw [hf] at h; cases h
    · rw [hf] at h
      simp only [Option.map_some', Option.some.injEq] at h
      have h1 : e.1 = n := by simpa using List.find?_some hf
      have h2 := List.mem_of_find?_eq_some hf
      have h3 := hRkey e h2
      rw [← h, ← h3]
      exact h1
  haveI htot : IsTotal String (fun a b => strLe a b = true) :=
    ⟨fun a b => charListLe_total a.toList b.toList⟩
  haveI htr : IsTrans String (fun a b => strLe a b = true) :=
    ⟨fun a b c => charListLe_trans a.toList b.toList c.toList⟩
  have hsorted := List.sorted_insertionSort (fun a b => strLe a b = true)
    (((mods.map (fun p => (basename p, p))).filter
      (fun e => !(decide (e.1 ∈ DESIRED_ORDER)))).map Prod.fst)
  have hBpair : ((((mods.map (fun p => (basename p, p))).filter
        (fun e => !(decide (e.1 ∈ DESIRED_ORDER)))).map Prod.fst |>.insertionSort
        (fun a b => strLe a b = true)).filterMap
        (fun n => lookupVal ((mods.map (fun p => (basename p, p))).filter
          (fun e => !(decide (e.1 ∈ DESIRED_ORDER)))) n)).Pairwise
      (fun p q => strLe (basename p) (basename q) = true) := by
    apply pairwise_filterMap_of hsorted
    intro a b x y _ _ hfa hfb hr
    rw [hlookR_key a x hfa, hlookR_key b y hfb]
    exact hr
  have hsortperm := List.perm_insertionSort (fun a b => strLe a b = true)
    (((mods.map (fun p => (basename p, p))).filter
      (fun e => !(decide (e.1 ∈ DESIRED_ORDER)))).map Prod.fst)
  have hBperm : ((((mods.map (fun p => (basename p, p))).filter
        (fun e => !(decide (e.1 ∈ DESIRED_ORDER)))).map Prod.fst |>.insertionSort
        (fun a b => strLe a b = true)).filterMap
        (fun n => lookupVal ((mods.map (fun p => (basename p, p))).filter
          (fun e => !(decide (e.1 ∈ DESIRED_ORDER)))) n)).Perm
      (mods.filter (fun p => !(decide (basename p ∈ DESIRED_ORDER)))) := by
    have t1 := hsortperm.filterMap
      (fun n => lookupVal ((mods.map (fun p => (basename p, p))).filter
        (fun e => !(decide (e.1 ∈ DESIRED_ORDER)))) n)
    rw [mapFst_filterMap_lookup hRknd, hRsnd] at t1
    exact t1
  have hAkey : ∀ (n p : String),
      mods.find? (fun q => basename q == n) = some p → basename p = n := by
    intro n p h
    simpa using List.find?_some h
  have hAnodup : (DESIRED_ORDER.filterMap
      (fun n => mods.find? (fun p => basename p == n))).Nodup :=
    filterMap_nodup_of_key hD hAkey
  have hmodnodup : mods.Nodup := List.Nodup.of_map basename hnd
  have hfilnodup : (mods.filter
      (fun p => decide (basename p ∈ DESIRED_ORDER))).Nodup :=
    hmodnodup.filter _
  have hAmem : ∀ q, q ∈ DESIRED_ORDER.filterMap
        (fun n => mods.find? (fun p => basename p == n)) ↔
      q ∈ mods.filter (fun p => decide (basename p ∈ DESIRED_ORDER)) := by
    intro q
    constructor
    · intro h
      obtain ⟨n, hn, hfq⟩ := List.mem_filterMap.mp h
      have hqm : q ∈ mods := List.mem_of_find?_eq_some hfq
      have hbq : basename q = n := hAkey n q hfq
      apply List.mem_filter.mpr
      exact ⟨hqm, by rw [hbq]; simpa using hn⟩
    · intro h
      obtain ⟨hqm, hdq⟩ := List.mem_filter.mp h
      have hbD : basename q ∈ DESIRED_ORDER := by simpa using hdq
      apply List.mem_filterMap.mpr
      refine ⟨basename q, hbD, ?_⟩
      apply find?_unique hqm (by simp)
      intro x hx hpx
      exact List.inj_on_of_nodup_map hnd hx hqm (beq_iff_eq.mp hpx)
  have hAperm : (DESIRED_ORDER.filterMap
        (fun n => mods.find? (fun p => basename p == n))).Perm
      (mods.filter (fun p => decide (basename p ∈ DESIRED_ORDER))) :=
    (List.perm_ext_iff_of_nodup hAnodup hfilnodup).mpr hAmem
  have heq : discoverAndOrderCodemods mods =
      DESIRED_ORDER.filterMap
        (fun n => mods.find? (fun p => basename p == n)) ++
      (((((mods.map (fun p => (basename p, p))).filter
          (fun e => !(decide (e.1 ∈ DESIRED_ORDER)))).map Prod.fst).insertionSort
          (fun a b => strLe a b = true)).filterMap
        (fun n => lookupVal ((mods.map (fun p => (basename p, p))).filter
          (fun e => !(decide (e.1 ∈ DESIRED_ORDER)))) n)) := by
    have hfm : DESIRED_ORDER.filterMap
        (fun n => lookupVal (mods.map (fun p => (basename p, p))) n) =
        DESIRED_ORDER.filterMap
        (fun n => mods.find? (fun p => basename p == n)) :=
      filterMap_congr_mem (fun n _ => hfind n)
    rw [hdef, hfm]
  refine ⟨?_, _, heq, hBperm, hBpair⟩
  rw [heq]
  exact (hAperm.append hBperm).trans
    (List.filter_append_perm (fun p => decide (basename p ∈ DESIRED_ORDER)) mods)

open RunCodemods in
/-- Witness for C9 on a concrete glob result. -/
theorem codemod_order_invariant_witness :
    ((["codemods/zz.js", "codemods/transform-env-access.js",
        "codemods/a-extra.js"] : List String).map basename).Nodup ∧
    (discoverAndOrderCodemods
      ["codemods/zz.js", "codemods/transform-env-access.js",
        "codemods/a-extra.js"]).Perm
      ["codemods/zz.js", "codemods/transform-env-access.js",
        "codemods/a-extra.js"] :=
  ⟨by decide,
    (codemod_order_invariant
      ["codemods/zz.js", "codemods/transform-env-access.js",
        "codemods/a-extra.js"] (by decide)).1⟩

/-- C10: frame property of the env-file updater: the output has exactly one
line per input line, in the same order, and every line that does not match
the `KEY=GET_FROM_LOCAL_ENV` placeholder pattern is reproduced verbatim;
only placeholder lines are ever altered. -/
theorem envUpdater_frame (env : List Char → Option (List Char))
    (fallback : List Char) (strict : Bool) (merged : List (List Char)) :
    (UpdateEnv.run env fallback strict merged).lines.length = merged.length ∧
    (∀ (i : Nat) (l : List Char), merged[i]? = some l →
      UpdateEnv.envLineKey l = none →
      (UpdateEnv.run env fallback strict merged).lines[i]? = some l) := by
  constructor
  · simp [UpdateEnv.run]
  · intro i l hline hnone
    simp only [UpdateEnv.run, List.map_map, List.getElem?_map, hline,
      Option.map_some']
    simp only [Function.comp_apply, UpdateEnv.processLine, hnone]

/-- Witness for C10 at a concrete run: a comment line, a blank line and an
ordinary assignment pass through a run untouched, in position. -/
theorem envUpdater_frame_witness :
    (["# c".toList, "".toList, "A=B".toList] : List (List Char))[0]? =
        some "# c".toList ∧
      UpdateEnv.envLineKey "# c".toList = none ∧
      (UpdateEnv.run (fun _ => none) [] true
          ["# c".toList, "".toList, "A=B".toList]).lines[0]? =
        some "# c".toList :=
  ⟨by decide, by decide,
    (envUpdater_frame (fun _ => none) [] true
      ["# c".toList, "".toList, "A=B".toList]).2 0 "# c".toList
      (by decide) (by decide)⟩

/-- C3: no-op detection: when the transformed content is textually identical
to the original, `transformFile` neither writes the file back nor creates a
backup, reports no updated/transformed event, and leaves the content
unchanged — both in `scripts/transform-utils.js` and in
`codemods/transform-docker-scripts.js`. -/
theorem transformFile_noop :
    (∀ c : List Char, TransformUtils.transformShell c = c →
      (TransformUtils.transformFile c).1.wrote = false ∧
      (TransformUtils.transformFile c).1.backupCreated = false ∧
      (TransformUtils.transformFile c).1.event = TransformUtils.FileEvent.noChange ∧
      (TransformUtils.transformFile c).2 = c) ∧
    (∀ (b c : List Char), TransformDockerScripts.dockerTransform b c = c →
      (TransformDockerScripts.transformFile b c).1.wrote = false ∧
      (TransformDockerScripts.transformFile b c).1.chmodApplied = false ∧
      (TransformDockerScripts.transformFile b c).1.event =
        TransformDockerScripts.DockerEvent.noChange ∧
      (TransformDockerScripts.transformFile b c).2 = c) := by
  constructor
  · intro c h
    simp [TransformUtils.transformFile, h]
  · intro b c h
    simp [TransformDockerScripts.transformFile, h]

/-- Witness for C3: an already-converted shell line, and a docker script that
already carries a shebang and a `BUN_BASE_IMAGE` reference, are both left
untouched. -/
theorem transformFile_noop_witness :
    TransformUtils.transformShell "bun install".toList = "bun install".toList ∧
    (TransformUtils.transformFile "bun install".toList).1.wrote = false ∧
    TransformDockerScripts.dockerTransform "oven/bun:latest".toList
      "#!/bin/sh\nBUN_BASE_IMAGE=x".toList = "#!/bin/sh\nBUN_BASE_IMAGE=x".toList ∧
    (TransformDockerScripts.transformFile "oven/bun:latest".toList
      "#!/bin/sh\nBUN_BASE_IMAGE=x".toList).1.wrote = false :=
  ⟨by decide,
    ((transformFile_noop).1 "bun install".toList (by decide)).1,
    by decide,
    ((transformFile_noop).2 "oven/bun:latest".toList
      "#!/bin/sh\nBUN_BASE_IMAGE=x".toList (by decide)).1⟩

/-- C4 (code bug): `bun-test-all.js` destructures `{ exitCode }` from
`proc.exited`, which resolves to a number, so the recorded exit code is
`undefined` and `undefined !== 0` marks every unit failed: the summary of a
run over one package whose `bun test` child exits 0 records one failure and
exits 1, where the claim requires exit 0. -/
theorem testAll_success_run_exits_one :
    testAllRun 1 [0] = ([0], 1) ∧ (testAllRun 1 [0]).2 ≠ 0 := by
  constructor
  · decide
  · decide

/-- C8: every `--tag=`, `--dockerfile=`, `--context=` and `--build-arg=`
value is stored as `arg.split("=")[1]`: only the text before the first `=`
of the value survives, so a value containing `=` is silently truncated. -/
theorem dockerBuild_parseArgs_truncates (v : List Char) :
    (DockerBuild.parseArgs [("--build-arg=".toList ++ v)]).buildArgs =
      [some (v.takeWhile (fun c => !(c == '=')))] ∧
    (DockerBuild.parseArgs [("--tag=".toList ++ v)]).tag =
      some (v.takeWhile (fun c => !(c == '='))) ∧
    (DockerBuild.parseArgs [("--dockerfile=".toList ++ v)]).dockerfile =
      some (v.takeWhile (fun c => !(c == '='))) ∧
    (DockerBuild.parseArgs [("--context=".toList ++ v)]).contextDir =
      some (v.takeWhile (fun c => !(c == '='))) ∧
    ('=' ∈ v → v.takeWhile (fun c => !(c == '=')) ≠ v) := by
  have hsp : ∀ (u : List Char), (∀ c ∈ u, c ≠ '=') → ∀ (w : List Char),
      splitIdx1 '=' [] (u ++ '=' :: w) = w.takeWhile (fun c => !(c == '=')) := by
    intro u hu w
    unfold splitIdx1
    rw [splitOnChar_append '=' u hu w]
    simp only [List.drop_succ_cons, List.drop_zero]
    rcases hs : splitOnChar '=' w with _ | ⟨h0, t⟩
    · exact absurd hs (splitOnChar_ne_nil '=' w)
    · have hh := splitOnChar_head '=' w
      rw [hs] at hh
      simp only [List.head?_cons, Option.some.injEq] at hh
      simp [hh]
  have hba : ∀ (w : List Char), ("--build-arg=".toList ++ w) =
      "--build-arg".toList ++ '=' :: w := by
    intro w
    rw [show "--build-arg=".toList = "--build-arg".toList ++ ['='] from rfl]
    simp
  have htag : ∀ (w : List Char), ("--tag=".toList ++ w) =
      "--tag".toList ++ '=' :: w := by
    intro w
    rw [show "--tag=".toList = "--tag".toList ++ ['='] from rfl]
    simp
  have hdf : ∀ (w : List Char), ("--dockerfile=".toList ++ w) =
      "--dockerfile".toList ++ '=' :: w := by
    intro w
    rw [show "--dockerfile=".toList = "--dockerfile".toList ++ ['='] from rfl]
    simp
  have hctx : ∀ (w : List Char), ("--context=".toList ++ w) =
      "--context".toList ++ '=' :: w := by
    intro w
    rw [show "--context=".toList = "--context".toList ++ ['='] from rfl]
    simp
  refine ⟨?_, ?_, ?_, ?_, ?_⟩
  · have hpre : ("--build-arg=".toList).isPrefixOf
        ("--build-arg=".toList ++ v) = true :=
      List.isPrefixOf_iff_prefix.mpr (List.prefix_append _ _)
    simp only [DockerBuild.parseArgs, DockerBuild.parseArgsGo, hpre, if_true]
    rw [hba v, hsp "--build-arg".toList (by decide) v]
    rfl
  · have h1 : ("--build-arg=".toList).isPrefixOf
        ("--tag=".toList ++ v) = false := by
      rw [show "--build-arg=".toList =
            ['-','-','b','u','i','l','d','-','a','r','g','='] from rfl,
        show "--tag=".toList = ['-','-','t','a','g','='] from rfl]
      simp [List.isPrefixOf]
    have h2 : ("--tag=".toList ++ v) ≠ "--build-arg".toList := by
      intro h
      have hg := congrArg (fun l : List Char => l[2]?) h
      rw [show "--tag=".toList = ['-','-','t','a','g','='] from rfl,
        show "--build-arg".toList =
          ['-','-','b','u','i','l','d','-','a','r','g'] from rfl] at hg
      simp at hg
    have h3 : ("--tag=".toList).isPrefixOf ("--tag=".toList ++ v) = true :=
      List.isPrefixOf_iff_prefix.mpr (List.prefix_append _ _)
    simp only [DockerBuild.parseArgs, DockerBuild.parseArgsGo, h1, h2, h3,
      if_false, if_true, Bool.false_eq_true, if_neg (fun h => h2 h)]
    rw [htag v, hsp "--tag".toList (by decide) v]
  · have h1 : ("--build-arg=".toList).isPrefixOf
        ("--dockerfile=".toList ++ v) = false := by
      rw [show "--build-arg=".toList =
            ['-','-','b','u','i','l','d','-','a','r','g','='] from rfl,
        show "--dockerfile=".toList =
          ['-','-','d','o','c','k','e','r','f','i','l','e','='] from rfl]
      simp [List.isPrefixOf]
    have h2 : ("--dockerfile=".toList ++ v) ≠ "--build-arg".toList := by
      intro h
      have hg := congrArg (fun l : List Char => l[2]?) h
      rw [show "--dockerfile=".toList =
            ['-','-','d','o','c','k','e','r','f','i','l','e','='] from rfl,
        show "--build-arg".toList =
          ['-','-','b','u','i','l','d','-','a','r','g'] from rfl] at hg
      simp at hg
    have h3 : ("--tag=".toList).isPrefixOf
        ("--dockerfile=".toList ++ v) = false := by
      rw [show "--tag=".toList = ['-','-','t','a','g','='] from rfl,
        show "--dockerfile=".toList =
          ['-','-','d','o','c','k','e','r','f','i','l','e','='] from rfl]
      simp [List.isPrefixOf]
    have h4 : ("--dockerfile=".toList).isPrefixOf
        ("--dockerfile=".toList ++ v) = true :=
      List.isPrefixOf_iff_prefix.mpr (List.prefix_append _ _)
    simp only [DockerBuild.parseArgs, DockerBuild.parseArgsGo, h1, h3, h4,
      if_false, if_true, Bool.false_eq_true, if_neg (fun h => h2 h)]
    rw [hdf v, hsp "--dockerfile".toList (by decide) v]
  · have h1 : ("--build-arg=".toList).isPrefixOf
        ("--context=".toList ++ v) = false := by
      rw [show "--build-arg=".toList =
            ['-','-','b','u','i','l','d','-','a','r','g','='] from rfl,
        show "--context=".toList =
          ['-','-','c','o','n','t','e','x','t','='] from rfl]
      simp [List.isPrefixOf]
    have h2 : ("--context=".toList ++ v) ≠ "--build-arg".toList := by
      intro h
      have hg := congrArg (fun l : List Char => l[2]?) h
      rw [show "--context=".toList =
            ['-','-','c','o','n','t','e','x','t','='] from rfl,
        show "--build-arg".toList =
          ['-','-','b','u','i','l','d','-','a','r','g'] from rfl] at hg
      simp at hg
    have h3 : ("--tag=".toList).isPrefixOf
        ("--context=".toList ++ v) = false := by
      rw [show "--tag=".toList = ['-','-','t','a','g','='] from rfl,
        show "--context=".toList =
          ['-','-','c','o','n','t','e','x','t','='] from rfl]
      simp [List.isPrefixOf]
    have h4 : ("--dockerfile=".toList).isPrefixOf
        ("--context=".toList ++ v) = false := by
      rw [show "--dockerfile=".toList =
            ['-','-','d','o','c','k','e','r','f','i','l','e','='] from rfl,
        show "--context=".toList =
          ['-','-','c','o','n','t','e','x','t','='] from rfl]
      simp [List.isPrefixOf]
    have h5 : ("--context=".toList).isPrefixOf
        ("--context=".toList ++ v) = true :=
      List.isPrefixOf_iff_prefix.mpr (List.prefix_append _ _)
    simp only [DockerBuild.parseArgs, DockerBuild.parseArgsGo, h1, h3, h4, h5,
      if_false, if_true, Bool.false_eq_true, if_neg (fun h => h2 h)]
    rw [hctx v, hsp "--context".toList (by decide) v]
  · intro hmem heq
    have := List.takeWhile_eq_self_iff.mp heq
    have hcontra := this '=' hmem
    simp at hcontra

/-- Witness for C8 at `--build-arg=FOO=bar`: the stored build arg is `FOO`,
not `FOO=bar`. -/
theorem dockerBuild_parseArgs_truncates_witness :
    (DockerBuild.parseArgs [("--build-arg=".toList ++ "FOO=bar".toList)]).buildArgs =
      [some "FOO".toList] ∧
    "FOO=bar".toList.takeWhile (fun c => !(c == '=')) ≠ "FOO=bar".toList := by
  constructor
  · rw [(dockerBuild_parseArgs_truncates "FOO=bar".toList).1]
    decide
  · exact (dockerBuild_parseArgs_truncates "FOO=bar".toList).2.2.2.2 (by decide)

/-- C1: fallback substitution in the env-file updater: a merged input line
matching the `KEY=GET_FROM_LOCAL_ENV` placeholder becomes `KEY=value` when
the runtime environment defines the key; otherwise `KEY=fallback` when a
non-empty `--fallback` was supplied; otherwise the line is kept unchanged and
the key is recorded in the missing-variable warnings, and the run aborts with
a non-zero exit for such a line exactly when `--strict` was given. -/
theorem envUpdater_fallback (env : List Char → Option (List Char))
    (fallback : List Char) (strict : Bool) (merged : List (List Char))
    (i : Nat) (line key : List Char)
    (hline : merged[i]? = some line)
    (hkey : UpdateEnv.envLineKey line = some key) :
    (∀ v, env key = some v →
      (UpdateEnv.run env fallback strict merged).lines[i]? =
        some (key ++ '=' :: v)) ∧
    (env key = none → fallback ≠ [] →
      (UpdateEnv.run env fallback strict merged).lines[i]? =
        some (key ++ '=' :: fallback)) ∧
    (env key = none → fallback = [] →
      (UpdateEnv.run env fallback strict merged).lines[i]? = some line ∧
      key ∈ (UpdateEnv.run env fallback strict merged).missing ∧
      ((UpdateEnv.run env fallback strict merged).exitCode ≠ 0 ↔
        strict = true)) := by
  have hmem : line ∈ merged := by
    obtain ⟨hlt, hg⟩ := List.getElem?_eq_some_iff.mp hline
    exact hg ▸ List.getElem_mem hlt
  have hget : ∀ o : UpdateEnv.LineOut,
      UpdateEnv.processLine env fallback line = o →
      (UpdateEnv.run env fallback strict merged).lines[i]? = some o.out := by
    intro o ho
    simp only [UpdateEnv.run, List.map_map, List.getElem?_map, hline,
      Option.map_some', Function.comp_apply, ho]
  refine ⟨?_, ?_, ?_⟩
  · intro v hv
    exact hget ⟨key ++ '=' :: v, some key, none⟩
      (by simp [UpdateEnv.processLine, hkey, hv])
  · intro hv hfb
    have hfb' : fallback.isEmpty = false := by
      rcases fallback with _ | _
      · exact absurd rfl hfb
      · rfl
    exact hget ⟨key ++ '=' :: fallback, some key, none⟩
      (by simp [UpdateEnv.processLine, hkey, hv, hfb'])
  · intro hv hfb
    subst hfb
    have hproc : UpdateEnv.processLine env [] line =
        ⟨line, none, some key⟩ := by
      simp [UpdateEnv.processLine, hkey, hv]
    have hmiss : key ∈ (UpdateEnv.run env [] strict merged).missing := by
      simp only [UpdateEnv.run]
      apply List.mem_filterMap.mpr
      refine ⟨UpdateEnv.processLine env [] line, List.mem_map.mpr ⟨line, hmem, rfl⟩, ?_⟩
      rw [hproc]
    refine ⟨hget _ hproc, hmiss, ?_⟩
    have hne : ((UpdateEnv.run env [] strict merged).missing).isEmpty = false := by
      rcases hm : (UpdateEnv.run env [] strict merged).missing with _ | _
      · rw [hm] at hmiss; cases hmiss
      · rfl
    have hcode : (UpdateEnv.run env [] strict merged).exitCode =
        if strict then 1 else 0 := by
      have hx : (UpdateEnv.run env [] strict merged).exitCode =
          if !((UpdateEnv.run env [] strict merged).missing).isEmpty && strict
          then 1 else 0 := rfl
      rw [hx, hne]
      simp
    rw [hcode]
    cases strict with
    | false => simp
    | true => simp

/-- Witness for C1: a placeholder line with no runtime value and no fallback
stays unchanged, is reported missing, and under `--strict` the run exits
non-zero; a placeholder line with a runtime value is substituted. -/
theorem envUpdater_fallback_witness :
    (["FOO=GET_FROM_LOCAL_ENV".toList] : List (List Char))[0]? =
        some "FOO=GET_FROM_LOCAL_ENV".toList ∧
    UpdateEnv.envLineKey "FOO=GET_FROM_LOCAL_ENV".toList = some "FOO".toList ∧
    ((UpdateEnv.run (fun _ => none) [] true
        ["FOO=GET_FROM_LOCAL_ENV".toList]).lines[0]? =
      some "FOO=GET_FROM_LOCAL_ENV".toList ∧
     "FOO".toList ∈ (UpdateEnv.run (fun _ => none) [] true
        ["FOO=GET_FROM_LOCAL_ENV".toList]).missing ∧
     ((UpdateEnv.run (fun _ => none) [] true
        ["FOO=GET_FROM_LOCAL_ENV".toList]).exitCode ≠ 0 ↔ true = true)) ∧
    (UpdateEnv.run
        (fun k => if k = "FOO".toList then some "1".toList else none)
        [] false ["FOO=GET_FROM_LOCAL_ENV".toList]).lines[0]? =
      some ("FOO".toList ++ '=' :: "1".toList) :=
  ⟨by decide, by decide,
    (envUpdater_fallback (fun _ => none) [] true
      ["FOO=GET_FROM_LOCAL_ENV".toList] 0 "FOO=GET_FROM_LOCAL_ENV".toList
      "FOO".toList (by decide) (by decide)).2.2 (by decide) rfl,
    (envUpdater_fallback
      (fun k => if k = "FOO".toList then some "1".toList else none)
      [] false ["FOO=GET_FROM_LOCAL_ENV".toList] 0
      "FOO=GET_FROM_LOCAL_ENV".toList "FOO".toList (by decide) (by decide)).1
      "1".toList (by decide)⟩

/-- C2: idempotence of the rewrite rules: the npm/npx/yarn → bun substitution
of `transform-utils.js` is idempotent on every text; re-running the
`GET_FROM_LOCAL_ENV` substitution of the env updater on its own output lines
is a no-op; and `ensureDeps` with a fixed unique-keyed dependency batch run
twice on a manifest produces the same manifest — and hence identical file
content — as running it once. -/
theorem rewriteRules_idem :
    (∀ s : List Char,
      TransformUtils.transformShell (TransformUtils.transformShell s) =
        TransformUtils.transformShell s) ∧
    (∀ (env : List Char → Option (List Char)) (fallback : List Char)
        (strict : Bool) (merged : List (List Char)),
      (UpdateEnv.run env fallback strict
          (UpdateEnv.run env fallback strict merged).lines).lines =
        (UpdateEnv.run env fallback strict merged).lines) ∧
    (∀ (deps : List (String × String)) (dev : Bool)
        (pkg : UpdatePackageJson.Pkg), (deps.map Prod.fst).Nodup →
      UpdatePackageJson.ensureDeps deps dev
          (UpdatePackageJson.ensureDeps deps dev pkg) =
        UpdatePackageJson.ensureDeps deps dev pkg ∧
      UpdatePackageJson.serializePkg
          (UpdatePackageJson.ensureDeps deps dev
            (UpdatePackageJson.ensureDeps deps dev pkg)) =
        UpdatePackageJson.serializePkg
          (UpdatePackageJson.ensureDeps deps dev pkg)) := by
  refine ⟨fun s => applyRules_idem TransformUtils.rules_allOK s,
    fun env fb st merged => UpdateEnv.run_lines_idem env fb st merged, ?_⟩
  intro deps dev pkg hnd
  have h : UpdatePackageJson.ensureDeps deps dev
      (UpdatePackageJson.ensureDeps deps dev pkg) =
      UpdatePackageJson.ensureDeps deps dev pkg := by
    cases dev with
    | false => simp [UpdatePackageJson.ensureDeps, objMerge_idem hnd]
    | true => simp [UpdatePackageJson.ensureDeps, objMerge_idem hnd]
  exact ⟨h, by rw [h]⟩

/-- Witness for C2: a shell command line, an env run, and a two-entry
dependency batch, all stable on the second pass. -/
theorem rewriteRules_idem_witness :
    TransformUtils.transformShell
        (TransformUtils.transformShell "npm install && npx jest".toList) =
      TransformUtils.transformShell "npm install && npx jest".toList ∧
    (UpdateEnv.run (fun _ => none) "x".toList false
        (UpdateEnv.run (fun _ => none) "x".toList false
          ["FOO=GET_FROM_LOCAL_ENV".toList]).lines).lines =
      (UpdateEnv.run (fun _ => none) "x".toList false
        ["FOO=GET_FROM_LOCAL_ENV".toList]).lines ∧
    (([("elysia", "^1.5.0"), ("@elysiajs/static", "^1.0.0")].map
        Prod.fst).Nodup ∧
      UpdatePackageJson.ensureDeps
          [("elysia", "^1.5.0"), ("@elysiajs/static", "^1.0.0")] false
          (UpdatePackageJson.ensureDeps
            [("elysia", "^1.5.0"), ("@elysiajs/static", "^1.0.0")] false
            ⟨[("express", "^5.1.0")], [], []⟩) =
        UpdatePackageJson.ensureDeps
          [("elysia", "^1.5.0"), ("@elysiajs/static", "^1.0.0")] false
          ⟨[("express", "^5.1.0")], [], []⟩) :=
  ⟨rewriteRules_idem.1 "npm install && npx jest".toList,
    rewriteRules_idem.2.1 (fun _ => none) "x".toList false
      ["FOO=GET_FROM_LOCAL_ENV".toList],
    by decide,
    (rewriteRules_idem.2.2
      [("elysia", "^1.5.0"), ("@elysiajs/static", "^1.0.0")] false
      ⟨[("express", "^5.1.0")], [], []⟩ (by decide)).1⟩

/-- C5 counterexample: in the `bun-build-all.js` fan-out a failing first unit
aborts the run (`error(...)` exits the process), so with two units the second
never runs: the claim that all units run to completion in every fan-out is
false. -/
theorem buildAll_cancels_counterexample :
    buildAllRun [1, 0] = ([1], true) ∧ (buildAllRun [1, 0]).1.length ≠ 2 :=
  ⟨by decide, by decide⟩

/-- C5 (amended): failure isolation holds for the install and test fan-outs —
every unit runs to completion whatever the other units' outcomes, and
failures are aggregated — but the build fan-out aborts the whole run at the
first unit whose recorded exit is nonzero (with the exit-code destructuring
slip, at the first unit unconditionally), cancelling the remaining units. -/
theorem failure_isolation_amended :
    (∀ (k n : Nat) (s : Pool.PoolState), Pool.Reach k n s →
      Pool.Complete n s → s.done.Perm (List.range n)) ∧
    (∀ (outcomes : List Bool) (k n : Nat) (s : Pool.PoolState),
      outcomes.length = n → Pool.Reach k n s → Pool.Complete n s →
      Pool.hadError outcomes s = outcomes.any (fun b => !b)) ∧
    (∀ (jobs : Nat) (exits : List Nat), 1 ≤ jobs →
      testAllProcessed jobs exits = exits) ∧
    (∀ (e : Nat) (rest : List Nat), buildAllRun (e :: rest) = ([e], true)) := by
  refine ⟨fun k n s hr hc => Pool.done_perm_range hr hc,
    fun outcomes k n s hlen hr hc => Pool.hadError_eq hlen hr hc,
    fun jobs exits hj => chunksGo_flatten hj exits.length exits (Nat.le_refl _),
    fun e rest => by simp [buildAllRun, jsStrictNeqZero, jsDestructureExitCode]⟩

/-- Witness for C5 at a complete one-task pool run and a concrete batch. -/
theorem failure_isolation_amended_witness :
    Pool.Reach 1 1 ⟨1, [], 1, [0]⟩ ∧ Pool.Complete 1 ⟨1, [], 1, [0]⟩ ∧
    (⟨1, [], 1, [0]⟩ : Pool.PoolState).done.Perm (List.range 1) ∧
    Pool.hadError [false] ⟨1, [], 1, [0]⟩ = [false].any (fun b => !b) ∧
    testAllProcessed 1 [7] = [7] := by
  have step1 : Pool.PoolStep 1 (Pool.initState 1) ⟨1, [0], 0, []⟩ :=
    Pool.PoolStep.start (Pool.initState 1) (by decide) (by decide)
  have step2 : Pool.PoolStep 1 ⟨1, [0], 0, []⟩ ⟨1, [], 1, [0]⟩ :=
    Pool.PoolStep.finish ⟨1, [0], 0, []⟩ 0 (by decide)
  have hreach : Pool.Reach 1 1 ⟨1, [], 1, [0]⟩ :=
    Relation.ReflTransGen.head step1
      (Relation.ReflTransGen.head step2 Relation.ReflTransGen.refl)
  exact ⟨hreach, ⟨rfl, rfl⟩,
    failure_isolation_amended.1 1 1 _ hreach ⟨rfl, rfl⟩,
    failure_isolation_amended.2.1 [false] 1 1 _ rfl hreach ⟨rfl, rfl⟩,
    failure_isolation_amended.2.2.1 1 [7] (by decide)⟩

theorem foldl_append_filter (p : Nat → Bool) :
    ∀ (cs : List (List Nat)) (acc : List Nat),
      cs.foldl (fun a b => a ++ b.filter p) acc = acc ++ cs.flatten.filter p := by
  intro cs
  induction cs with
  | nil => intro acc; simp
  | cons c cs' ih =>
    intro acc
    rw [List.foldl_cons, ih (acc ++ c.filter p), List.flatten_cons,
      List.filter_append, List.append_assoc]

/-- C6: the concurrency limit defaults to 1 when unspecified or invalid and
is always at least 1; a reachable pool state never has more than `k` units in
flight; the final exit aggregate of a complete run is identical for every
choice of `k`; and in the batched test loop every batch is bounded by `jobs`
while the collected failures are the same whatever `jobs` is. -/
theorem concurrency_bound_and_outcome :
    (resolveConcurrency none = 1 ∧ resolveConcurrency (some none) = 1 ∧
      (∀ n : Int, n ≤ 0 → resolveConcurrency (some (some n)) = 1) ∧
      (∀ o, 1 ≤ resolveConcurrency o)) ∧
    (∀ (k n : Nat) (s : Pool.PoolState), Pool.Reach k n s →
      s.running.length ≤ k) ∧
    (∀ (k₁ k₂ n : Nat) (outcomes : List Bool) (s₁ s₂ : Pool.PoolState),
      outcomes.length = n →
      Pool.Reach k₁ n s₁ → Pool.Complete n s₁ →
      Pool.Reach k₂ n s₂ → Pool.Complete n s₂ →
      Pool.exitCodeOf outcomes s₁ = Pool.exitCodeOf outcomes s₂) ∧
    (∀ (jobs : Nat) (exits : List Nat), 1 ≤ jobs →
      (∀ b ∈ chunksOf jobs exits, b.length ≤ jobs) ∧
      (testAllRun jobs exits).1 =
        exits.filter (fun e => jsStrictNeqZero (jsDestructureExitCode e))) := by
  refine ⟨⟨rfl, rfl, ?_, ?_⟩, fun k n s h => Pool.running_le_k h, ?_, ?_⟩
  · intro n hn
    simp only [resolveConcurrency]
    rw [if_neg (by omega)]
  · intro o
    rcases o with _ | o
    · exact Int.le_refl 1
    rcases o with _ | n
    · exact Int.le_refl 1
    · simp only [resolveConcurrency]
      by_cases h : 0 < n
      · rw [if_pos h]; omega
      · rw [if_neg h]
  · intro k₁ k₂ n outcomes s₁ s₂ hlen h1 hc1 h2 hc2
    unfold Pool.exitCodeOf
    rw [Pool.hadError_eq hlen h1 hc1, Pool.hadError_eq hlen h2 hc2]
  · intro jobs exits hj
    refine ⟨fun b hb => chunksGo_length hj exits.length exits (Nat.le_refl _) b hb, ?_⟩
    show (chunksOf jobs exits).foldl _ [] = _
    rw [foldl_append_filter]
    rw [show (chunksOf jobs exits).flatten = exits from
      chunksGo_flatten hj exits.length exits (Nat.le_refl _)]
    rfl

/-- Witness for C6: complete runs of the same single-task workload under
k = 1 and k = 2 yield the same exit code, and the bound holds at a reachable
state. -/
theorem concurrency_bound_and_outcome_witness :
    (⟨1, [], 1, [0]⟩ : Pool.PoolState).running.length ≤ 1 ∧
    Pool.exitCodeOf [true] ⟨1, [], 1, [0]⟩ =
      Pool.exitCodeOf [true] ⟨1, [], 2, [0]⟩ ∧
    resolveConcurrency (some (some (-3))) = 1 ∧
    (∀ b ∈ chunksOf 2 [0, 1, 2], b.length ≤ 2) ∧
    (testAllRun 2 [0, 1, 2]).1 =
      [0, 1, 2].filter (fun e => jsStrictNeqZero (jsDestructureExitCode e)) := by
  have step1 : Pool.PoolStep 1 (Pool.initState 1) ⟨1, [0], 0, []⟩ :=
    Pool.PoolStep.start (Pool.initState 1) (by decide) (by decide)
  have step2 : Pool.PoolStep 1 ⟨1, [0], 0, []⟩ ⟨1, [], 1, [0]⟩ :=
    Pool.PoolStep.finish ⟨1, [0], 0, []⟩ 0 (by decide)
  have hr1 : Pool.Reach 1 1 ⟨1, [], 1, [0]⟩ :=
    Relation.ReflTransGen.head step1
      (Relation.ReflTransGen.head step2 Relation.ReflTransGen.refl)
  have step1b : Pool.PoolStep 1 (Pool.initState 2) ⟨1, [0], 1, []⟩ :=
    Pool.PoolStep.start (Pool.initState 2) (by decide) (by decide)
  have step2b : Pool.PoolStep 1 ⟨1, [0], 1, []⟩ ⟨1, [], 2, [0]⟩ :=
    Pool.PoolStep.finish ⟨1, [0], 1, []⟩ 0 (by decide)
  have hr2 : Pool.Reach 2 1 ⟨1, [], 2, [0]⟩ :=
    Relation.ReflTransGen.head step1b
      (Relation.ReflTransGen.head step2b Relation.ReflTransGen.refl)
  refine ⟨concurrency_bound_and_outcome.2.1 1 1 _ hr1, ?_, ?_, ?_, ?_⟩
  · exact concurrency_bound_and_outcome.2.2.1 1 2 1 [true] _ _ rfl
      hr1 ⟨rfl, rfl⟩ hr2 ⟨rfl, rfl⟩
  · exact concurrency_bound_and_outcome.1.2.2.1 (-3) (by omega)
  · exact (concurrency_bound_and_outcome.2.2.2 2 [0, 1, 2] (by decide)).1
  · exact (concurrency_bound_and_outcome.2.2.2 2 [0, 1, 2] (by decide)).2

/-- C7 counterexample: the Node variant of `ensureDeps` treats a malformed
manifest as fatal — `process.exit(1)` — so the remaining targets are not
processed, contradicting the claim that such a file is skipped and the run
continues. -/
theorem nodeUpdater_parse_fatal_counterexample :
    UpdatePackageJson.nodeUpdaterRun
        [(some (UpdatePackageJson.JsonFile.malformed "not json"),
            [("jscodeshift", "^17.3.0")], true),
          (some (UpdatePackageJson.JsonFile.ok ⟨[], [], []⟩),
            [("jscodeshift", "^17.3.0")], true)] =
      ([UpdatePackageJson.NodeFileOutcome.fatalParse], 1) ∧
    (UpdatePackageJson.nodeUpdaterRun
        [(some (UpdatePackageJson.JsonFile.malformed "not json"),
            [("jscodeshift", "^17.3.0")], true),
          (some (UpdatePackageJson.JsonFile.ok ⟨[], [], []⟩),
            [("jscodeshift", "^17.3.0")], true)]).1.length ≠ 2 :=
  ⟨by decide, by decide⟩

/-- C7 (amended): the codemod `transform-package-json.js` logs a parse error
and skips the file, continuing with the remaining files (every file gets an
outcome, parsed files are transformed and written); the Node
`update-packagejson.js` dependency updater instead treats any manifest parse
error as unconditionally fatal — exit 1, remaining targets unprocessed —
there is no non-fatal mode. -/
theorem malformed_input_handling_amended :
    (∀ (t : UpdatePackageJson.Pkg → UpdatePackageJson.Pkg)
        (files : List UpdatePackageJson.JsonFile),
      (TransformPackageJson.transformPackageJsonRun t files).length =
        files.length) ∧
    (∀ (t : UpdatePackageJson.Pkg → UpdatePackageJson.Pkg)
        (files : List UpdatePackageJson.JsonFile) (i : Nat) (raw : String),
      files[i]? = some (UpdatePackageJson.JsonFile.malformed raw) →
      (TransformPackageJson.transformPackageJsonRun t files)[i]? = some none) ∧
    (∀ (t : UpdatePackageJson.Pkg → UpdatePackageJson.Pkg)
        (files : List UpdatePackageJson.JsonFile) (i : Nat)
        (pkg : UpdatePackageJson.Pkg),
      files[i]? = some (UpdatePackageJson.JsonFile.ok pkg) →
      (TransformPackageJson.transformPackageJsonRun t files)[i]? =
        some (some (t pkg))) ∧
    (∀ (deps : List (String × String)) (dev : Bool) (raw : String)
        (rest : List (Option UpdatePackageJson.JsonFile ×
          List (String × String) × Bool)),
      UpdatePackageJson.nodeUpdaterRun
          ((some (UpdatePackageJson.JsonFile.malformed raw), deps, dev) :: rest) =
        ([UpdatePackageJson.NodeFileOutcome.fatalParse], 1)) := by
  refine ⟨?_, ?_, ?_, ?_⟩
  · intro t files
    simp [TransformPackageJson.transformPackageJsonRun]
  · intro t files i raw h
    simp only [TransformPackageJson.transformPackageJsonRun,
      List.getElem?_map, h, Option.map_some']
    rfl
  · intro t files i pkg h
    simp only [TransformPackageJson.transformPackageJsonRun,
      List.getElem?_map, h, Option.map_some']
    rfl
  · intro deps dev raw rest
    rfl

/-- Witness for C7 at concrete files: a malformed file is skipped while a
good file is transformed, and a malformed first target aborts the Node
run. -/
theorem malformed_input_handling_amended_witness :
    ([UpdatePackageJson.JsonFile.malformed "x",
        UpdatePackageJson.JsonFile.ok ⟨[], [], []⟩] :
        List UpdatePackageJson.JsonFile)[0]? =
      some (UpdatePackageJson.JsonFile.malformed "x") ∧
    (TransformPackageJson.transformPackageJsonRun id
        [UpdatePackageJson.JsonFile.malformed "x",
          UpdatePackageJson.JsonFile.ok ⟨[], [], []⟩])[0]? = some none ∧
    (TransformPackageJson.transformPackageJsonRun id
        [UpdatePackageJson.JsonFile.malformed "x",
          UpdatePackageJson.JsonFile.ok ⟨[], [], []⟩])[1]? =
      some (some ⟨[], [], []⟩) ∧
    UpdatePackageJson.nodeUpdaterRun
        [(some (UpdatePackageJson.JsonFile.malformed "x"), [], false)] =
      ([UpdatePackageJson.NodeFileOutcome.fatalParse], 1) :=
  ⟨by decide,
    malformed_input_handling_amended.2.1 id
      [UpdatePackageJson.JsonFile.malformed "x",
        UpdatePackageJson.JsonFile.ok ⟨[], [], []⟩] 0 "x" (by decide),
    malformed_input_handling_amended.2.2.1 id
      [UpdatePackageJson.JsonFile.malformed "x",
        UpdatePackageJson.JsonFile.ok ⟨[], [], []⟩] 1 ⟨[], [], []⟩ (by decide),
    malformed_input_handling_amended.2.2.2 [] false "x" []⟩

end LibreScripts
